import Mathlib

/-!
SmartPool client: the shares, the timestamp claim repository and its claim queues.

A shallow embedding of `ethereum/share.go` and `ethereum/timestamp_claim_repo.go`.

* The Go type `*big.Int` is `Int`; `uint64` is a `Nat` reduced modulo `2 ^ 64` by every
  operation that can overflow; `int` is an `Int` in the 64-bit signed range.
* A Go `map[string]*Share` is an association list; `range` over a map visits the
  entries in an order chosen by the runtime, so the loop of `getCurrentClaim` takes
  the visiting order as an argument.
* `types.Header.Hash().Hex()` (go-ethereum) is a function argument `hashHex`.
-/

namespace SmartPool

/-! ## go-ethereum data used by the repository -/

/-- The type `types.BlockNonce`, an array of 8 bytes. -/
structure BlockNonce where
  b0 : Fin 256
  b1 : Fin 256
  b2 : Fin 256
  b3 : Fin 256
  b4 : Fin 256
  b5 : Fin 256
  b6 : Fin 256
  b7 : Fin 256
deriving DecidableEq, Repr

/-- The method `BlockNonce.Uint64`: the 8 bytes read big-endian. -/
def BlockNonce.Uint64 (n : BlockNonce) : Nat :=
  n.b0.val * 2 ^ 56 + n.b1.val * 2 ^ 48 + n.b2.val * 2 ^ 40 + n.b3.val * 2 ^ 32
    + n.b4.val * 2 ^ 24 + n.b5.val * 2 ^ 16 + n.b6.val * 2 ^ 8 + n.b7.val

/-- The type `types.Header`. Hashes and the bloom filter are the numbers their bytes
spell, big integers are `Int`, and the coinbase address is kept as its `Hex()`
rendering, the only way the repository reads it. -/
structure Header where
  ParentHash : Nat
  UncleHash : Nat
  Coinbase : String
  Root : Nat
  TxHash : Nat
  ReceiptHash : Nat
  Bloom : Nat
  Difficulty : Int
  Number : Int
  GasLimit : Int
  GasUsed : Int
  Time : Int
  Extra : List Nat
  MixDigest : Nat
  Nonce : BlockNonce
deriving DecidableEq, Repr

/-! ## `share.go` -/

/-- The struct `Share` (the lazily built DAG tree `dt` is a cache and is left out). -/
structure Share where
  blockHeader : Header
  nonce : BlockNonce
  mixDigest : Nat
  shareDifficulty : Int
  minerAddress : String
  SolutionState : Int
deriving DecidableEq, Repr

namespace Share

/-- The method `func (s *Share) ShareDifficulty() *big.Int`. -/
def ShareDifficulty (s : Share) : Int := s.shareDifficulty

/-- The method `func (s *Share) Nonce() uint64`. -/
def Nonce (s : Share) : Nat := s.nonce.Uint64

/-- The method `func (s *Share) MinerAddress() string`. -/
def MinerAddress (s : Share) : String := s.minerAddress

/-- The method `func (s *Share) BlockHeader() *types.Header`. -/
def BlockHeader (s : Share) : Header := s.blockHeader

/-- The method `func (s *Share) Timestamp() *big.Int`. -/
def Timestamp (s : Share) : Int := s.blockHeader.Time

end Share

/-- The key of a share in `activeShares`:
`fmt.Sprintf("%s-%v", share.BlockHeader().Hash().Hex(), share.Nonce())`. -/
def shareID (hashHex : Header → String) (s : Share) : String :=
  hashHex s.BlockHeader ++ "-" ++ toString s.Nonce

/-! ## `share.go`: the share counter -/

/-- The bytes `s.nonce[:]` of a nonce, first byte first. -/
def BlockNonce.bytes (n : BlockNonce) : List (Fin 256) :=
  [n.b0, n.b1, n.b2, n.b3, n.b4, n.b5, n.b6, n.b7]

/-- The call `new(big.Int).SetBytes(b)`: the bytes read as a big-endian unsigned
integer. -/
def bigOfBytes (b : List (Fin 256)) : Int :=
  b.foldl (fun acc x => acc * 256 + (x.val : Int)) 0

/-- The method `func (s *Share) NonceBig() *big.Int`. -/
def Share.NonceBig (s : Share) : Int := bigOfBytes s.nonce.bytes

/-- The method `func (s *Share) Counter() *big.Int`: the timestamp shifted left by 64
bits (`Lsh`) plus the nonce bytes read by `SetBytes`. -/
def Share.Counter (s : Share) : Int :=
  (s.Timestamp <<< (64 : Int)) + bigOfBytes s.nonce.bytes

/-! ## Claims -/

/-- Modelled from the spec: `protocol.Claim`, whose source is not part of the files at
hand. A claim is an ordered sequence of shares, insertion order preserved, with the
share-index evidence set later by the orchestrator. -/
structure Claim where
  shares : List Share
  shareIndex : Option Int
deriving DecidableEq, Repr

/-- Modelled from the spec: `protocol.NewClaim()`, the claim without shares. -/
def NewClaim : Claim := { shares := [], shareIndex := none }

/-- Modelled from the spec: `Claim.AddShare` appends the share, and rejects a share that
would break the monotone-counter invariant of the claim. The canonical order of a claim is
the order of its counters, so the counters are strictly increasing in it as long as they
are pairwise distinct: the share rejected is the one whose counter the claim holds already.
The repository calls `AddShare` as a statement and reads no result, so a rejected share
leaves the claim as it was. -/
def Claim.AddShare (c : Claim) (s : Share) : Claim :=
  if s.Counter ∈ c.shares.map Share.Counter then c else { c with shares := c.shares ++ [s] }

/-- The claim after `AddShare` was called for each share of `ss`, first to last. -/
def Claim.addShares (c : Claim) (ss : List Share) : Claim := ss.foldl Claim.AddShare c

/-- Modelled from the spec: `Claim.NumShares`, the number of shares of the claim. -/
def Claim.NumShares (c : Claim) : Int := c.shares.length

/-! ## Go maps and machine integers -/

/-- A Go `map[string]*Share`: its entries, each key at most once. -/
abbrev ShareMap := List (String × Share)

/-- The map read `m[k]`, `none` standing for the `nil` of an absent key. -/
def mapGet : ShareMap → String → Option Share
  | [], _ => none
  | (k', v) :: m, k => if k' = k then some v else mapGet m k

/-- The map write `m[k] = v`: replaces the entry of `k` or adds one. -/
def mapSet : ShareMap → String → Share → ShareMap
  | [], k, v => [(k, v)]
  | (k', v') :: m, k, v => if k' = k then (k, v) :: m else (k', v') :: mapSet m k v

/-- The conversion `uint64(x)` of a Go `int`. -/
def uint64OfInt (x : Int) : Nat := (x % 2 ^ 64).toNat

/-- The values of the Go type `int` (64-bit). -/
def IsGoInt (x : Int) : Prop := -(2 ^ 63) ≤ x ∧ x < 2 ^ 63

instance (x : Int) : Decidable (IsGoInt x) := by
  unfold IsGoInt; infer_instance

/-! ## `timestamp_claim_repo.go` -/

/-- The struct `TimestampClaimRepo` without its two locks and its storage handle:
`Persist` only reads the repository. -/
structure TimestampClaimRepo where
  activeShares : ShareMap
  activeClaims : List Claim
  openClaims : List Claim
  recentTimestamp : Int
  noShares : Nat
  noRecentShares : Nat
  diff : Int
  miner : String
  coinbase : String
deriving DecidableEq, Repr

/-- The repository `NewTimestampClaimRepo` builds when the storage holds nothing:
no shares, no claims, `currentTimestamp = 0` and both counters `0`. -/
def emptyRepo (diff : Int) (miner coinbase : String) : TimestampClaimRepo :=
  { activeShares := [], activeClaims := [], openClaims := [], recentTimestamp := 0,
    noShares := 0, noRecentShares := 0, diff := diff, miner := miner, coinbase := coinbase }

/-- The three errors `AddShare` returns, with the values their messages print. -/
inductive AddShareError where
  | inconsistentCoinbase (share expected : String)
  | inconsistentDifficulty (expected got : Int)
  | duplicatedShare
deriving DecidableEq, Repr

namespace TimestampClaimRepo

/-- The method `func (cr *TimestampClaimRepo) NoActiveShares() uint64`. -/
def NoActiveShares (cr : TimestampClaimRepo) : Nat :=
  (cr.noShares + cr.noRecentShares) % 2 ^ 64

/-- The method `func (cr *TimestampClaimRepo) AddShare(s smartpool.Share) error`: the error
returned (`none` for `nil`) and the repository after the call. -/
def AddShare (hashHex : Header → String) (cr : TimestampClaimRepo) (share : Share) :
    Option AddShareError × TimestampClaimRepo :=
  let shareID := shareID hashHex share
  if share.BlockHeader.Coinbase ≠ cr.coinbase then
    (some (.inconsistentCoinbase share.BlockHeader.Coinbase cr.coinbase), cr)
  else if share.ShareDifficulty ≠ cr.diff then
    (some (.inconsistentDifficulty cr.diff share.ShareDifficulty), cr)
  else if (mapGet cr.activeShares shareID).isSome then
    (some .duplicatedShare, cr)
  else
    let cr := { cr with activeShares := mapSet cr.activeShares shareID share }
    if share.Timestamp = cr.recentTimestamp then
      (none, { cr with noRecentShares := (cr.noRecentShares + 1) % 2 ^ 64 })
    else if share.Timestamp < cr.recentTimestamp then
      (none, { cr with noShares := (cr.noShares + 1) % 2 ^ 64 })
    else if share.Timestamp > cr.recentTimestamp then
      (none, { cr with
        noShares := (cr.noShares + cr.noRecentShares) % 2 ^ 64
        noRecentShares := 1
        recentTimestamp := share.Timestamp })
    else
      (none, cr)

/-- One round of the loop of `getCurrentClaim` over an entry of `activeShares`: the
claim and the new map after the entry. -/
def claimStep (hashHex : Header → String) (recentTimestamp : Int)
    (acc : Claim × ShareMap) (e : String × Share) : Claim × ShareMap :=
  if e.2.Timestamp < recentTimestamp then
    (acc.1.AddShare e.2, acc.2)
  else
    (acc.1, mapSet acc.2 (shareID hashHex e.2) e.2)

/-- The method `func (cr *TimestampClaimRepo) getCurrentClaim(threshold int) smartpool.Claim`:
the claim returned (`none` for `nil`) and the repository after the call. `order` is
the order in which `range cr.activeShares` visits the entries. -/
def getCurrentClaim (hashHex : Header → String) (cr : TimestampClaimRepo)
    (threshold : Int) (order : ShareMap) : Option Claim × TimestampClaimRepo :=
  if cr.noShares < uint64OfInt threshold then
    (none, cr)
  else
    let r := order.foldl (claimStep hashHex cr.recentTimestamp) (NewClaim, [])
    (some r.1, { cr with activeShares := r.2, noShares := 0 })

/-- The method `func (cr *TimestampClaimRepo) GetCurrentClaim(threshold int) smartpool.Claim`:
`getCurrentClaim` followed by `Persist`, which writes the repository to the storage
and changes no field of it. -/
def GetCurrentClaim (hashHex : Header → String) (cr : TimestampClaimRepo)
    (threshold : Int) (order : ShareMap) : Option Claim × TimestampClaimRepo :=
  getCurrentClaim hashHex cr threshold order

end TimestampClaimRepo

/-! ## Runs of the repository -/

/-- The repository after a sequence of `AddShare` calls, accepted or rejected. -/
def addShares (hashHex : Header → String) (cr : TimestampClaimRepo) (ss : List Share) :
    TimestampClaimRepo :=
  ss.foldl (fun cr s => (TimestampClaimRepo.AddShare hashHex cr s).2) cr

/-- The states a repository goes through when it starts empty and serves `AddShare` and
`GetCurrentClaim` calls in any interleaving. Every `range` over the map may visit the
entries in any order, and the thresholds are any integers, the Go `int`s among them. -/
inductive Reachable (hashHex : Header → String) (diff : Int) (miner coinbase : String) :
    TimestampClaimRepo → Prop
  | empty : Reachable hashHex diff miner coinbase (emptyRepo diff miner coinbase)
  | addShare {cr : TimestampClaimRepo} (s : Share) :
      Reachable hashHex diff miner coinbase cr →
      Reachable hashHex diff miner coinbase (TimestampClaimRepo.AddShare hashHex cr s).2
  | getCurrentClaim {cr : TimestampClaimRepo} (threshold : Int) (order : ShareMap) :
      Reachable hashHex diff miner coinbase cr → order.Perm cr.activeShares →
      Reachable hashHex diff miner coinbase
        (TimestampClaimRepo.GetCurrentClaim hashHex cr threshold order).2

/-- The entry holds a share older than `t`: the test of the loop of `getCurrentClaim`. -/
def olderThan (t : Int) (e : String × Share) : Bool := decide (e.2.Timestamp < t)

/-- The entry holds a share with timestamp `t`. -/
def stampedAt (t : Int) (e : String × Share) : Bool := decide (e.2.Timestamp = t)

/-- The invariant of the reachable states. The counters are `uint64`, so they agree
with the counts of the map modulo `2 ^ 64`. -/
structure Inv (hashHex : Header → String) (cr : TimestampClaimRepo) : Prop where
  keys : ∀ e ∈ cr.activeShares, e.1 = shareID hashHex e.2
  nodup : (cr.activeShares.map Prod.fst).Nodup
  le : ∀ e ∈ cr.activeShares, e.2.Timestamp ≤ cr.recentTimestamp
  top : cr.recentTimestamp = 0 ∨ ∃ e ∈ cr.activeShares, e.2.Timestamp = cr.recentTimestamp
  recent : cr.noRecentShares = cr.activeShares.countP (stampedAt cr.recentTimestamp) % 2 ^ 64
  older : cr.noShares = cr.activeShares.countP (olderThan cr.recentTimestamp) % 2 ^ 64

/-! ## Sample data -/

/-- A stand-in for `Header.Hash().Hex()` on the sample headers. -/
def demoHash (h : Header) : String := "0x" ++ toString h.ParentHash

/-- A sample header for the pool contract `0xC`. -/
def demoHeader (parent : Nat) (time : Int) : Header :=
  { ParentHash := parent, UncleHash := 0, Coinbase := "0xC", Root := 0, TxHash := 0,
    ReceiptHash := 0, Bloom := 0, Difficulty := 1, Number := 1, GasLimit := 0, GasUsed := 0,
    Time := time, Extra := [], MixDigest := 0, Nonce := ⟨0, 0, 0, 0, 0, 0, 0, 0⟩ }

/-- A sample share of difficulty 1000 mined by `0xM`, with the nonce 7. -/
def demoShare (parent : Nat) (time : Int) : Share :=
  { blockHeader := demoHeader parent time, nonce := ⟨0, 0, 0, 0, 0, 0, 0, 7⟩, mixDigest := 0,
    shareDifficulty := 1000, minerAddress := "0xM", SolutionState := 1 }

/-- The empty repository of Scenario A: diff 1000, miner `0xM`, contract `0xC`. -/
def demoRepo : TimestampClaimRepo := emptyRepo 1000 "0xM" "0xC"


/-- Scenario A: the repository after shares with timestamps 100, 100, 200. -/
def demoRepoA : TimestampClaimRepo :=
  addShares demoHash demoRepo [demoShare 1 100, demoShare 2 100, demoShare 3 200]

/-- Scenario B: the repository after shares with timestamps 50, 60. -/
def demoRepoB : TimestampClaimRepo :=
  addShares demoHash demoRepo [demoShare 1 50, demoShare 2 60]

/-- A sample share like `demoShare`, with the nonce `n`. -/
def demoShareNonce (n : Fin 256) (parent : Nat) (time : Int) : Share :=
  { demoShare parent time with nonce := ⟨0, 0, 0, 0, 0, 0, 0, n⟩ }

/-- Scenario A with the nonces 1, 2, 3: the repository after shares with timestamps 100,
100, 200, whose counters are pairwise distinct. -/
def demoRepoS : TimestampClaimRepo :=
  addShares demoHash demoRepo
    [demoShareNonce 1 1 100, demoShareNonce 2 2 100, demoShareNonce 3 3 200]

/-- The repository after two shares with the timestamp 100: both are at the recent
timestamp and none is older. -/
def demoRepoT : TimestampClaimRepo :=
  addShares demoHash demoRepo [demoShareNonce 1 1 100, demoShareNonce 2 2 100]

/-! ## Claims: the evidence -/

/-- Modelled from the spec: `Claim.SetEvidence` stores the share-index evidence. -/
def Claim.SetEvidence (c : Claim) (shareIndex : Option Int) : Claim :=
  { c with shareIndex := shareIndex }

/-- Modelled from the spec: `Claim.GetEvidence` reads the share-index evidence. -/
def Claim.GetEvidence (c : Claim) : Option Int := c.shareIndex

/-! ## `timestamp_claim_repo.go`: the claim queues -/

/-- The outcome of a Go call that may stop with a run-time panic. -/
inductive Outcome (α : Type) where
  | returns (a : α)
  | panics
deriving DecidableEq, Repr

namespace TimestampClaimRepo

/-- The method `func (cr *TimestampClaimRepo) PutOpenClaim(claim smartpool.Claim)`. -/
def PutOpenClaim (cr : TimestampClaimRepo) (claim : Claim) : TimestampClaimRepo :=
  { cr with activeClaims := cr.activeClaims ++ [claim] }

/-- The method `func (cr *TimestampClaimRepo) RemoveOpenClaim(claim smartpool.Claim)`.
The write to index `len(cr.activeClaims)-1` panics on an empty slice; the argument is
not read. -/
def RemoveOpenClaim (cr : TimestampClaimRepo) (_claim : Claim) : Outcome TimestampClaimRepo :=
  if cr.activeClaims.length = 0 then
    .panics
  else
    .returns { cr with activeClaims := cr.activeClaims.take (cr.activeClaims.length - 1) }

/-- The method `func (cr *TimestampClaimRepo) GetOpenClaim(index int) smartpool.Claim`:
the claim returned, `none` for `nil`. A negative index passes the test and panics in
the slice read. -/
def GetOpenClaim (cr : TimestampClaimRepo) (index : Int) : Outcome (Option Claim) :=
  if index ≥ (cr.openClaims.length : Int) then
    .returns none
  else if index < 0 then
    .panics
  else
    .returns cr.openClaims[index.toNat]?

/-- The method `func (cr *TimestampClaimRepo) SealClaimBatch()`. -/
def SealClaimBatch (cr : TimestampClaimRepo) : TimestampClaimRepo :=
  { cr with openClaims := cr.activeClaims, activeClaims := [] }

/-- The method `func (cr *TimestampClaimRepo) NumOpenClaims() uint64`. It returns
`uint64(len(cr.activeClaims))`; the length of a slice is a non-negative `int`, which the
conversion keeps. -/
def NumOpenClaims (cr : TimestampClaimRepo) : Nat := cr.activeClaims.length

/-- The method `func (cr *TimestampClaimRepo) ResetOpenClaims()`. -/
def ResetOpenClaims (cr : TimestampClaimRepo) : TimestampClaimRepo :=
  { cr with activeClaims := [] }

end TimestampClaimRepo

/-- A call of one of the methods of the repository. -/
inductive Op where
  | addShare (s : Share)
  | getCurrentClaim (threshold : Int) (order : ShareMap)
  | putOpenClaim (claim : Claim)
  | removeOpenClaim (claim : Claim)
  | getOpenClaim (index : Int)
  | sealClaimBatch
  | numOpenClaims
  | resetOpenClaims
  | noActiveShares
deriving DecidableEq, Repr

/-- The repository after a call. `GetOpenClaim`, `NumOpenClaims` and `NoActiveShares`
assign no field. -/
def Op.run (hashHex : Header → String) (cr : TimestampClaimRepo) : Op →
    Outcome TimestampClaimRepo
  | .addShare s => .returns (cr.AddShare hashHex s).2
  | .getCurrentClaim threshold order => .returns (cr.GetCurrentClaim hashHex threshold order).2
  | .putOpenClaim claim => .returns (cr.PutOpenClaim claim)
  | .removeOpenClaim claim => cr.RemoveOpenClaim claim
  | .getOpenClaim index =>
    match cr.GetOpenClaim index with
    | .returns _ => .returns cr
    | .panics => .panics
  | .sealClaimBatch => .returns cr.SealClaimBatch
  | .numOpenClaims => .returns cr
  | .resetOpenClaims => .returns cr.ResetOpenClaims
  | .noActiveShares => .returns cr

/-- The repository after a sequence of calls, as long as none panics. -/
def runOps (hashHex : Header → String) (cr : TimestampClaimRepo) :
    List Op → Outcome TimestampClaimRepo
  | [] => .returns cr
  | op :: ops =>
    match op.run hashHex cr with
    | .returns cr2 => runOps hashHex cr2 ops
    | .panics => .panics

/-! ## `timestamp_claim_repo.go`: loading the last session -/

/-- The struct `gobShare`. -/
structure gobShare where
  BlockHeader : Header
  Nonce : BlockNonce
  MixDigest : Nat
  ShareDifficulty : Int
  MinerAddress : String
  SolutionState : Int
deriving DecidableEq, Repr

/-- The struct `gobClaim`; the `*big.Int` share index may be `nil`. -/
structure gobClaim where
  Shares : List gobShare
  ShareIndex : Option Int
deriving DecidableEq, Repr

/-- The two shapes of value the repository stores: the map of `gobShare`s and the list
`gobClaims`. -/
inductive Blob where
  | shares (m : List (String × gobShare))
  | claims (cs : List gobClaim)
deriving DecidableEq, Repr

/-- Modelled from the spec: `smartpool.PersistentStorage`, a typed blob store keyed by
file name; its source is not part of the files at hand. `failing` marks the keys whose
`Persist` fails with `StorageUnavailable`. -/
structure PersistentStorage where
  files : String → Option Blob
  failing : String → Bool := fun _ => false

/-- Modelled from the spec: the failures of `Load`. -/
inductive LoadError where
  | NotFound
  | Corrupt
deriving DecidableEq, Repr

/-- Modelled from the spec: `Load` with the type hint of the share map. -/
def PersistentStorage.LoadShares (storage : PersistentStorage) (key : String) :
    Except LoadError (List (String × gobShare)) :=
  match storage.files key with
  | none => .error .NotFound
  | some (.shares m) => .ok m
  | some (.claims _) => .error .Corrupt

/-- Modelled from the spec: `Load` with the type hint of the claim list. -/
def PersistentStorage.LoadClaims (storage : PersistentStorage) (key : String) :
    Except LoadError (List gobClaim) :=
  match storage.files key with
  | none => .error .NotFound
  | some (.claims cs) => .ok cs
  | some (.shares _) => .error .Corrupt

/-- The variable `ACTIVE_SHARE_FILE`. -/
def ACTIVE_SHARE_FILE : String := "active_shares"

/-- The variable `ACTIVE_CLAIM_FILE`. -/
def ACTIVE_CLAIM_FILE : String := "active_claims"

/-- The variable `OPEN_CLAIM_FILE`. -/
def OPEN_CLAIM_FILE : String := "open_claims"

/-- The share a loader builds from a `gobShare`. -/
def gobShare.toShare (g : gobShare) : Share :=
  { blockHeader := g.BlockHeader, nonce := g.Nonce, mixDigest := g.MixDigest,
    shareDifficulty := g.ShareDifficulty, minerAddress := g.MinerAddress,
    SolutionState := g.SolutionState }

/-- The function `loadClaims`: the claims loaded, none on a failed load, and the error. -/
def loadClaims (storage : PersistentStorage) (file : String) :
    List Claim × Option LoadError :=
  match storage.LoadClaims file with
  | .error err => ([], some err)
  | .ok claims =>
    (claims.map (fun claim =>
      (claim.Shares.foldl (fun cl s => cl.AddShare s.toShare) NewClaim).SetEvidence
        claim.ShareIndex), none)

/-- The function `loadOpenClaims`. -/
def loadOpenClaims (storage : PersistentStorage) : List Claim × Option LoadError :=
  loadClaims storage OPEN_CLAIM_FILE

/-- The function `loadActiveClaims`. -/
def loadActiveClaims (storage : PersistentStorage) : List Claim × Option LoadError :=
  loadClaims storage ACTIVE_CLAIM_FILE

/-- The function `loadActiveShares`: the map loaded, empty on a failed load, and the
error. Every stored key is kept with the share built from its value. -/
def loadActiveShares (storage : PersistentStorage) : ShareMap × Option LoadError :=
  match storage.LoadShares ACTIVE_SHARE_FILE with
  | .error err => ([], some err)
  | .ok gobShares => (gobShares.foldl (fun shares kv => mapSet shares kv.1 kv.2.toShare) [], none)

/-- What the second loop of `NewTimestampClaimRepo` keeps while it scans the loaded
shares. The two counters are Go `int`s bounded by the number of loaded shares. -/
structure Scan where
  noShares : Nat
  noRecentShares : Nat
  changedDiff : Bool
  changedMiner : Bool
  changedCoinbase : Bool
deriving DecidableEq, Repr

/-- The first loop of `NewTimestampClaimRepo`: the largest timestamp loaded, or 0. -/
def scanTimestamp (shares : ShareMap) : Int :=
  shares.foldl (fun currentTimestamp e =>
    if currentTimestamp < e.2.Timestamp then e.2.Timestamp else currentTimestamp) 0

/-- One round of the second loop of `NewTimestampClaimRepo`. -/
def scanStep (diff : Int) (miner coinbase : String) (currentTimestamp : Int)
    (acc : Scan) (e : String × Share) : Scan :=
  let acc :=
    if e.2.Timestamp = currentTimestamp then
      { acc with noRecentShares := acc.noRecentShares + 1 }
    else
      { acc with noShares := acc.noShares + 1 }
  let acc := if e.2.ShareDifficulty ≠ diff then { acc with changedDiff := true } else acc
  let acc := if e.2.MinerAddress ≠ miner then { acc with changedMiner := true } else acc
  if e.2.BlockHeader.Coinbase ≠ coinbase then { acc with changedCoinbase := true } else acc

/-- The second loop of `NewTimestampClaimRepo`. -/
def scanShares (diff : Int) (miner coinbase : String) (shares : ShareMap) : Scan :=
  shares.foldl (scanStep diff miner coinbase (scanTimestamp shares))
    { noShares := 0, noRecentShares := 0, changedDiff := false, changedMiner := false,
      changedCoinbase := false }

/-- How a prompt loop of `NewTimestampClaimRepo` ends, with the number of times it asked
`Enter 1 or 2: `. -/
inductive Choice where
  | discard (prompts : Nat)
  | abort (prompts : Nat)
  | unanswered (prompts : Nat)
deriving DecidableEq, Repr

/-- The prompt loop of `NewTimestampClaimRepo` over the successive values `Scanf` leaves
in `choice`: it asks until it reads `1` (discard) or `2` (`os.Exit(1)`), and never ends
when neither comes. -/
def readChoice : List String → Nat → Choice
  | [], prompts => .unanswered prompts
  | choice :: answers, prompts =>
    if choice = "1" then .discard (prompts + 1)
    else if choice = "2" then .abort (prompts + 1)
    else readChoice answers (prompts + 1)

/-- How `NewTimestampClaimRepo` ends: with a repository, with `os.Exit(1)`, or in a prompt
loop that is never answered; each with the number of prompts issued. -/
inductive Boot where
  | started (cr : TimestampClaimRepo) (prompts : Nat)
  | aborted (prompts : Nat)
  | unanswered (prompts : Nat)
deriving DecidableEq, Repr

/-- The repository both discard choices construct. -/
def discarded (diff : Int) (miner coinbase : String) : TimestampClaimRepo :=
  { activeShares := [], activeClaims := [], openClaims := [], recentTimestamp := 0,
    noShares := 0, noRecentShares := 0, diff := diff, miner := miner, coinbase := coinbase }

/-- The function `NewTimestampClaimRepo`, without the storage handle it keeps. `answers`
are the successive values the prompt loop reads. The loops over the loaded map compute
a maximum, two counts and three flags, which do not depend on the visiting order. -/
def NewTimestampClaimRepo (diff : Int) (miner coinbase : String)
    (storage : PersistentStorage) (answers : List String) : Boot :=
  let shares := (loadActiveShares storage).1
  let activeClaims := (loadActiveClaims storage).1
  let openClaims := (loadOpenClaims storage).1
  let currentTimestamp := scanTimestamp shares
  let scan := scanShares diff miner coinbase shares
  if scan.changedCoinbase then
    .started
      { activeShares := [], activeClaims := activeClaims, openClaims := openClaims,
        recentTimestamp := 0, noShares := 0, noRecentShares := 0, diff := diff,
        miner := miner, coinbase := coinbase } 0
  else if scan.changedMiner then
    match readChoice answers 0 with
    | .discard prompts => .started (discarded diff miner coinbase) prompts
    | .abort prompts => .aborted prompts
    | .unanswered prompts => .unanswered prompts
  else if scan.changedDiff then
    match readChoice answers 0 with
    | .discard prompts => .started (discarded diff miner coinbase) prompts
    | .abort prompts => .aborted prompts
    | .unanswered prompts => .unanswered prompts
  else
    .started
      { activeShares := shares, activeClaims := activeClaims, openClaims := openClaims,
        recentTimestamp := currentTimestamp, noShares := scan.noShares,
        noRecentShares := scan.noRecentShares, diff := diff, miner := miner,
        coinbase := coinbase } 0

/-! ## Sample data for the claim queues and the loader -/

/-- A sample share like `demoShare`, mined by `miner`. -/
def demoShareOf (miner : String) (parent : Nat) (time : Int) : Share :=
  { demoShare parent time with minerAddress := miner }

/-- A sample stored share whose header names the contract `coinbase`. -/
def demoGobShare (coinbase : String) (parent : Nat) (time : Int) : gobShare :=
  { BlockHeader := { demoHeader parent time with Coinbase := coinbase },
    Nonce := ⟨0, 0, 0, 0, 0, 0, 0, 7⟩, MixDigest := 0, ShareDifficulty := 1000,
    MinerAddress := "0xM", SolutionState := 1 }

/-- Scenario D: what a session for the contract `0xC1` stored, five active shares under
their shareIDs and one claim in each queue. -/
def demoStorageD : PersistentStorage :=
  { files := fun key =>
      if key = ACTIVE_SHARE_FILE then
        some (.shares [("0x1-7", demoGobShare "0xC1" 1 10), ("0x2-7", demoGobShare "0xC1" 2 10),
          ("0x3-7", demoGobShare "0xC1" 3 20), ("0x4-7", demoGobShare "0xC1" 4 20),
          ("0x5-7", demoGobShare "0xC1" 5 30)])
      else if key = ACTIVE_CLAIM_FILE then
        some (.claims [{ Shares := [demoGobShare "0xC1" 6 1], ShareIndex := some 0 }])
      else if key = OPEN_CLAIM_FILE then
        some (.claims [{ Shares := [demoGobShare "0xC1" 7 2], ShareIndex := some 0 }])
      else none }

/-- Scenario F with a late share: timestamps 10, 20, 30, a claim, then timestamp 5. -/
def demoRepoF1 : TimestampClaimRepo :=
  addShares demoHash demoRepo [demoShare 1 10, demoShare 2 20, demoShare 3 30]

/-- The repository of `demoRepoF1` after its first claim was taken and a share with
the older timestamp 5 came in. -/
def demoRepoF2 : TimestampClaimRepo :=
  (TimestampClaimRepo.AddShare demoHash
    (TimestampClaimRepo.GetCurrentClaim demoHash demoRepoF1 1 demoRepoF1.activeShares).2
    (demoShare 4 5)).2

/-- Shares of two miners: `0xM` at timestamp 100, `0xN` at 150, then `0xM` at 200. -/
def demoRepoM : TimestampClaimRepo :=
  addShares demoHash demoRepo
    [demoShareOf "0xM" 1 100, demoShareOf "0xN" 2 150, demoShareOf "0xM" 3 200]

/-- A repository with one claim in `openClaims` and another in `activeClaims`. -/
def demoRepoQ : TimestampClaimRepo :=
  { demoRepo with
    activeClaims := [{ shares := [demoShare 1 10], shareIndex := none }]
    openClaims := [{ shares := [demoShare 2 20], shareIndex := none },
      { shares := [demoShare 3 30], shareIndex := none }] }

/-! ## Sample data for the reconciliation at construction -/

/-- Scenario E: what a session with difficulty 1000 stored, three active shares under
their shareIDs and one claim in each queue. -/
def demoStorageE : PersistentStorage :=
  { files := fun key =>
      if key = ACTIVE_SHARE_FILE then
        some (.shares [("0x1-7", demoGobShare "0xC" 1 10), ("0x2-7", demoGobShare "0xC" 2 20),
          ("0x3-7", demoGobShare "0xC" 3 20)])
      else if key = ACTIVE_CLAIM_FILE then
        some (.claims [{ Shares := [demoGobShare "0xC" 6 1], ShareIndex := some 0 }])
      else if key = OPEN_CLAIM_FILE then
        some (.claims [{ Shares := [demoGobShare "0xC" 7 2], ShareIndex := some 0 }])
      else none }

/-- A stored session whose only active share has the timestamp -1. -/
def demoStorageN : PersistentStorage :=
  { files := fun key =>
      if key = ACTIVE_SHARE_FILE then
        some (.shares [("0x1-7", demoGobShare "0xC" 1 (-1))])
      else none }

/-! ## `share.go`: the DAG tree of a share -/

/-- The text `fmt.Sprintf("%b", n)` of an unsigned `n`: its binary digits, the most
significant first, and `0` for zero. -/
def sprintfBinary (n : Nat) : String :=
  if n = 0 then "0" else String.mk ((Nat.digits 2 n).reverse.map Nat.digitChar)

/-- The two arguments `buildDagTree` passes to `s.dt.RegisterStoredLevel`, from the value
`fullSize` that `ethash.DAGSize(s.NumberU64())` returns, a `uint64`: the length of the
binary text of `fullSize/128 - 1`, and 10, both converted to `uint32`. -/
def storedLevel (fullSize : Nat) : Nat × Nat :=
  let fullSizeIn128Resolution := fullSize / 128
  let branchDepth := (sprintfBinary ((fullSizeIn128Resolution + 2 ^ 64 - 1) % 2 ^ 64)).length
  (branchDepth % 2 ^ 32, 10 % 2 ^ 32)

/-- What `io.ReadFull(r, buf)` returns: `n == len(buf)` with no error, `n == 0` with
`io.EOF`, or fewer bytes than asked with `io.ErrUnexpectedEOF`. -/
inductive ReadFull where
  | full (bytes : List (Fin 256))
  | eof
  | unexpectedEOF (bytes : List (Fin 256))
deriving DecidableEq, Repr

/-- The call `io.ReadFull(r, buf[:len])` on a reader with the bytes `r` left, and the
bytes left after it. The file is read without I/O failure. -/
def readFull (r : List (Fin 256)) (len : Nat) : ReadFull × List (Fin 256) :=
  if len ≤ r.length then (.full (r.take len), r.drop len)
  else if r.length = 0 then (.eof, [])
  else (.unexpectedEOF r, [])

/-- How `processDuringRead` ends: it returns, or `log.Fatal` ends the process. -/
inductive ReadEnd where
  | returned
  | fatal (msg : String)
deriving DecidableEq, Repr

/-- The calls `mt.Insert(word, i)` that `processDuringRead` made, in order, and how it
ended. -/
structure DagRead where
  inserts : List (List (Fin 256) × Nat)
  ending : ReadEnd
deriving DecidableEq, Repr

/-- The second loop of `processDuringRead`, with the `uint32` index `i`: a read of 128
bytes is inserted, end of file breaks the loop, a shorter read is a malformed dataset. -/
def readElements (r : List (Fin 256)) (i : Nat) (inserted : List (List (Fin 256) × Nat)) :
    DagRead :=
  match hr : readFull r 128 with
  | (.full word, rest) => readElements rest ((i + 1) % 2 ^ 32) (inserted ++ [(word, i)])
  | (.eof, _) => { inserts := inserted, ending := .returned }
  | (.unexpectedEOF _, _) => { inserts := inserted, ending := .fatal "Malformed dataset" }
termination_by r.length
decreasing_by
  simp only [readFull] at hr
  split_ifs at hr with h1 h2
  · simp only [Prod.mk.injEq, ReadFull.full.injEq] at hr
    rw [← hr.2, List.length_drop]
    omega
  · simp at hr
  · simp at hr

/-- The function `processDuringRead` on the bytes of the dataset file, once it is open:
the 8 bytes of the magic number are skipped, then the elements are read. -/
def processDuringRead (file : List (Fin 256)) : DagRead :=
  match readFull file 8 with
  | (.full _, r) => readElements r 0 []
  | (.eof, _) => { inserts := [], ending := .fatal "EOF" }
  | (.unexpectedEOF _, _) => { inserts := [], ending := .fatal "unexpected EOF" }

/-! ## `stat/rig_data.go` -/

/-- A `time.Time`, as the time elapsed since the zero time: `IsZero` is `t = 0`. -/
abbrev Time := Int

/-- The conversion `int64(x)` of a `uint64`. -/
def int64OfUint64 (x : Nat) : Int := if x < 2 ^ 63 then (x : Int) else (x : Int) - 2 ^ 64

/-- The struct `PeriodRigData`. -/
structure PeriodRigData where
  MinedShare : Nat
  ValidShare : Nat
  TotalValidDifficulty : Int
  AverageShareDifficulty : Int
  RejectedShare : Nat
  TotalHashrate : Int
  NoHashrateSubmission : Nat
  AverageReportedHashrate : Int
  AverageEffectiveHashrate : Int
  BlockFound : Nat
  TimePeriod : Nat
  StartTime : Time
deriving DecidableEq, Repr

/-- The function `NewPeriodRigData`. -/
def NewPeriodRigData (timePeriod : Nat) : PeriodRigData :=
  { MinedShare := 0, ValidShare := 0, TotalValidDifficulty := 0, AverageShareDifficulty := 0,
    RejectedShare := 0, TotalHashrate := 0, NoHashrateSubmission := 0,
    AverageReportedHashrate := 0, AverageEffectiveHashrate := 0, BlockFound := 0,
    TimePeriod := timePeriod, StartTime := 0 }

/-- The method `func (prd *PeriodRigData) updateAvgEffHashrate(t time.Time)`;
`BaseTimePeriod` is a constant of the package declared in another file, not zero, and
`big.Int.Div` is the Euclidean division. -/
def PeriodRigData.updateAvgEffHashrate (BaseTimePeriod : Int) (prd : PeriodRigData) :
    PeriodRigData :=
  { prd with AverageEffectiveHashrate := Int.ediv prd.TotalValidDifficulty BaseTimePeriod }

/-- The method `func (prd *PeriodRigData) updateAvgShareDifficulty(t time.Time)`. -/
def PeriodRigData.updateAvgShareDifficulty (prd : PeriodRigData) : PeriodRigData :=
  if prd.ValidShare > 0 then
    { prd with
      AverageShareDifficulty :=
        Int.ediv prd.TotalValidDifficulty (int64OfUint64 prd.ValidShare) }
  else prd

/-- The struct `OverallRigData`. -/
structure OverallRigData where
  LastMinedShare : Time
  LastValidShare : Time
  LastRejectedShare : Time
  LastBlock : Time
  MinedShare : Nat
  ValidShare : Nat
  TotalValidDifficulty : Int
  AverageShareDifficulty : Int
  RejectedShare : Nat
  TotalHashrate : Int
  NoHashrateSubmission : Nat
  AverageReportedHashrate : Int
  AverageEffectiveHashrate : Int
  BlockFound : Nat
  StartTime : Time
deriving DecidableEq, Repr

/-- The method `func (rd *RigData) updateAvgEffHashrate(t time.Time)`, on the embedded
`OverallRigData`. -/
def OverallRigData.updateAvgEffHashrate (BaseTimePeriod : Int) (rd : OverallRigData) :
    OverallRigData :=
  { rd with AverageEffectiveHashrate := Int.ediv rd.TotalValidDifficulty BaseTimePeriod }

/-- The method `func (rd *RigData) updateAvgShareDifficulty(t time.Time)`, on the embedded
`OverallRigData`. -/
def OverallRigData.updateAvgShareDifficulty (rd : OverallRigData) : OverallRigData :=
  if rd.ValidShare > 0 then
    { rd with
      AverageShareDifficulty := Int.ediv rd.TotalValidDifficulty (int64OfUint64 rd.ValidShare) }
  else rd

/-- A Go `map[uint64]*PeriodRigData`: its entries, each key at most once. -/
abbrev PeriodMap := List (Nat × PeriodRigData)

/-- The map read `m[k]`, `none` standing for `nil`. -/
def periodGet : PeriodMap → Nat → Option PeriodRigData
  | [], _ => none
  | (k', v) :: m, k => if k' = k then some v else periodGet m k

/-- The entry of `k` replaced or added: the effect of a write through the pointer `m[k]`
or of `m[k] = v`. -/
def periodSet : PeriodMap → Nat → PeriodRigData → PeriodMap
  | [], k, v => [(k, v)]
  | (k', v') :: m, k, v => if k' = k then (k, v) :: m else (k', v') :: periodSet m k v

/-- The struct `RigData` with its embedded `*OverallRigData`. -/
structure RigData where
  RigID : String
  Datas : PeriodMap
  Overall : OverallRigData
deriving DecidableEq, Repr

/-- The function `NewRigData`. -/
def NewRigData (rigID : String) : RigData :=
  { RigID := rigID, Datas := [],
    Overall :=
      { LastMinedShare := 0, LastValidShare := 0, LastRejectedShare := 0, LastBlock := 0,
        MinedShare := 0, ValidShare := 0, TotalValidDifficulty := 0,
        AverageShareDifficulty := 0, RejectedShare := 0, TotalHashrate := 0,
        NoHashrateSubmission := 0, AverageReportedHashrate := 0,
        AverageEffectiveHashrate := 0, BlockFound := 0, StartTime := 0 } }

/-- The method `func (rd *RigData) getData(t time.Time) *PeriodRigData`: the rig data
with the entry of the period of `t` present, and that entry. `TimeToPeriod` is a
function of the package declared in another file. -/
def RigData.getData (TimeToPeriod : Time → Nat) (rd : RigData) (t : Time) :
    RigData × PeriodRigData :=
  let timePeriod := TimeToPeriod t
  match periodGet rd.Datas timePeriod with
  | some data => (rd, data)
  | none =>
    let data := NewPeriodRigData timePeriod
    ({ rd with Datas := periodSet rd.Datas timePeriod data }, data)

/-- The method `func (rd *RigData) AddShare(status string, share smartpool.Share,
t time.Time)`. The writes through the pointer `curPeriodData` end in the entry of the
period of `t`. -/
def RigData.AddShare (TimeToPeriod : Time → Nat) (BaseTimePeriod : Int) (rd : RigData)
    (status : String) (share : Share) (t : Time) : RigData :=
  let rd := if rd.Overall.StartTime = 0 then
    { rd with Overall := { rd.Overall with StartTime := t } } else rd
  let (rd, curPeriodData) := rd.getData TimeToPeriod t
  let curPeriodData := if curPeriodData.StartTime = 0 then
    { curPeriodData with StartTime := t } else curPeriodData
  let overall := rd.Overall
  let (overall, curPeriodData) :=
    if status = "submitted" then
      ({ overall with
          LastMinedShare := t
          MinedShare := (overall.MinedShare + 1) % 2 ^ 64 },
        { curPeriodData with MinedShare := (curPeriodData.MinedShare + 1) % 2 ^ 64 })
    else if status = "accepted" then
      ((({ overall with
          LastValidShare := t
          ValidShare := (overall.ValidShare + 1) % 2 ^ 64
          TotalValidDifficulty := overall.TotalValidDifficulty + share.ShareDifficulty }
          ).updateAvgShareDifficulty).updateAvgEffHashrate BaseTimePeriod,
        (({ curPeriodData with
          ValidShare := (curPeriodData.ValidShare + 1) % 2 ^ 64
          TotalValidDifficulty := curPeriodData.TotalValidDifficulty + share.ShareDifficulty }
          ).updateAvgShareDifficulty).updateAvgEffHashrate BaseTimePeriod)
    else if status = "rejected" then
      ({ overall with
          LastRejectedShare := t
          RejectedShare := (overall.RejectedShare + 1) % 2 ^ 64 },
        { curPeriodData with RejectedShare := (curPeriodData.RejectedShare + 1) % 2 ^ 64 })
    else if status = "fullsolution" then
      let overall := (({ overall with
          LastBlock := t
          LastValidShare := t
          ValidShare := (overall.ValidShare + 1) % 2 ^ 64
          TotalValidDifficulty := overall.TotalValidDifficulty + share.ShareDifficulty }
          ).updateAvgShareDifficulty).updateAvgEffHashrate BaseTimePeriod
      let curPeriodData := (({ curPeriodData with
          ValidShare := (curPeriodData.ValidShare + 1) % 2 ^ 64
          TotalValidDifficulty := curPeriodData.TotalValidDifficulty + share.ShareDifficulty }
          ).updateAvgShareDifficulty).updateAvgEffHashrate BaseTimePeriod
      ({ overall with BlockFound := (overall.BlockFound + 1) % 2 ^ 64 },
        { curPeriodData with BlockFound := (curPeriodData.BlockFound + 1) % 2 ^ 64 })
    else
      (overall, curPeriodData)
  { rd with Overall := overall, Datas := periodSet rd.Datas (TimeToPeriod t) curPeriodData }

/-- The rig data after a sequence of `AddShare` calls, each with its status, share and
time. -/
def RigData.addShares (TimeToPeriod : Time → Nat) (BaseTimePeriod : Int) (rd : RigData)
    (calls : List (String × Share × Time)) : RigData :=
  calls.foldl (fun rd call => rd.AddShare TimeToPeriod BaseTimePeriod call.1 call.2.1 call.2.2) rd

/-- The sum of a counter over the per-period entries of `Datas`. -/
def sumOver (f : PeriodRigData → Nat) (datas : PeriodMap) : Nat :=
  (datas.map (fun e => f e.2)).sum

/-- The sum of `TotalValidDifficulty` over the per-period entries of `Datas`. -/
def sumDifficulty (datas : PeriodMap) : Int :=
  (datas.map (fun e => e.2.TotalValidDifficulty)).sum

/-- A stand-in for `TimeToPeriod`: periods of 600 time units. -/
def demoPeriod (t : Time) : Nat := (t / 600).toNat

/-- A sample sequence of calls over two periods, with every status and an unknown one. -/
def demoCalls : List (String × Share × Time) :=
  [("submitted", demoShare 1 10, 100), ("accepted", demoShare 1 10, 101),
    ("submitted", demoShare 2 20, 700), ("rejected", demoShare 2 20, 701),
    ("submitted", demoShare 3 30, 710), ("fullsolution", demoShare 3 30, 711),
    ("timeout", demoShare 4 40, 1300)]

/-- The invariant of the rig data after `n` calls of `AddShare`: each overall `uint64`
counter agrees modulo `2 ^ 64` with the sum of the same counter over the periods, which
is at most `n`, and the overall total valid difficulty is the sum over the periods. -/
structure RigInv (rd : RigData) (n : Nat) : Prop where
  mined : rd.Overall.MinedShare = sumOver (fun p => p.MinedShare) rd.Datas % 2 ^ 64
  minedLe : sumOver (fun p => p.MinedShare) rd.Datas ≤ n
  valid : rd.Overall.ValidShare = sumOver (fun p => p.ValidShare) rd.Datas % 2 ^ 64
  validLe : sumOver (fun p => p.ValidShare) rd.Datas ≤ n
  rejected : rd.Overall.RejectedShare = sumOver (fun p => p.RejectedShare) rd.Datas % 2 ^ 64
  rejectedLe : sumOver (fun p => p.RejectedShare) rd.Datas ≤ n
  found : rd.Overall.BlockFound = sumOver (fun p => p.BlockFound) rd.Datas % 2 ^ 64
  foundLe : sumOver (fun p => p.BlockFound) rd.Datas ≤ n
  difficulty : rd.Overall.TotalValidDifficulty = sumDifficulty rd.Datas

/-! ## `timestamp_claim_repo.go`: saving the session -/

/-- Modelled from the spec: the failure of `PersistentStorage.Persist`. -/
inductive StorageError where
  | StorageUnavailable
deriving DecidableEq, Repr

/-- Modelled from the spec: `PersistentStorage.Persist(value, key)` replaces the file at
`key`, or fails and leaves the storage as it was. -/
def PersistentStorage.Persist (storage : PersistentStorage) (value : Blob) (key : String) :
    PersistentStorage × Option StorageError :=
  if storage.failing key then
    (storage, some .StorageUnavailable)
  else
    ({ storage with files := fun k => if k = key then some value else storage.files k }, none)

/-- A storage that holds nothing and accepts every write. -/
def emptyStorage : PersistentStorage := { files := fun _ => none }

/-- The `gobShare` that `Persist` and `persistClaims` build from a share. -/
def Share.toGob (s : Share) : gobShare :=
  { BlockHeader := s.BlockHeader, Nonce := s.nonce, MixDigest := s.mixDigest,
    ShareDifficulty := s.shareDifficulty, MinerAddress := s.minerAddress,
    SolutionState := s.SolutionState }

/-- The map write `gobShares[k] = v` on a Go `map[string]gobShare`. -/
def gobSet : List (String × gobShare) → String → gobShare → List (String × gobShare)
  | [], k, v => [(k, v)]
  | (k', v') :: m, k, v => if k' = k then (k, v) :: m else (k', v') :: gobSet m k v

namespace TimestampClaimRepo

/-- The method `func (cr *TimestampClaimRepo) persistClaims(claims, storage, file)`: each
claim with its shares, from `GetShare(0)` to the last, and its evidence. -/
def persistClaims (claims : List Claim) (storage : PersistentStorage) (file : String) :
    PersistentStorage × Option StorageError :=
  storage.Persist
    (.claims (claims.map (fun cc =>
      { Shares := cc.shares.map Share.toGob, ShareIndex := cc.GetEvidence }))) file

/-- The method `func (cr *TimestampClaimRepo) persistActiveClaims(storage)`. -/
def persistActiveClaims (cr : TimestampClaimRepo) (storage : PersistentStorage) :
    PersistentStorage × Option StorageError :=
  persistClaims cr.activeClaims storage ACTIVE_CLAIM_FILE

/-- The method `func (cr *TimestampClaimRepo) persistOpenClaims(storage)`. -/
def persistOpenClaims (cr : TimestampClaimRepo) (storage : PersistentStorage) :
    PersistentStorage × Option StorageError :=
  persistClaims cr.openClaims storage OPEN_CLAIM_FILE

/-- The method `func (cr *TimestampClaimRepo) Persist(storage) error`: the storage after
the call and the error returned. `order` is the order in which `range cr.activeShares`
visits the entries; the repository itself is only read. -/
def Persist (hashHex : Header → String) (cr : TimestampClaimRepo)
    (storage : PersistentStorage) (order : ShareMap) :
    PersistentStorage × Option StorageError :=
  let gobShares := order.foldl (fun gobShares e =>
    gobSet gobShares (shareID hashHex e.2) e.2.toGob) []
  match storage.Persist (.shares gobShares) ACTIVE_SHARE_FILE with
  | (storage, some err) => (storage, some err)
  | (storage, none) =>
    match cr.persistActiveClaims storage with
    | (storage, some err) => (storage, some err)
    | (storage, none) =>
      match cr.persistOpenClaims storage with
      | (storage, some err) => (storage, some err)
      | (storage, none) => (storage, none)

end TimestampClaimRepo

/-- A repository configured for the miner `0xM` that accepted one share of the miner
`0xN`, with one claim in `activeClaims`. -/
def demoRepoN : TimestampClaimRepo :=
  TimestampClaimRepo.PutOpenClaim
    (TimestampClaimRepo.AddShare demoHash demoRepo (demoShareOf "0xN" 2 100)).2
    { shares := [demoShare 1 10], shareIndex := some 0 }

/-- The storage after `demoRepoN` was saved into an empty one. -/
def demoStorageR : PersistentStorage :=
  (TimestampClaimRepo.Persist demoHash demoRepoN emptyStorage demoRepoN.activeShares).1

open TimestampClaimRepo

/-! ## Lemmas on Go maps -/

theorem mapGet_eq_none_iff (m : ShareMap) (k : String) :
    mapGet m k = none ↔ k ∉ m.map Prod.fst := by
  induction m with
  | nil => simp [mapGet]
  | cons e m ih =>
    obtain ⟨k', v⟩ := e
    by_cases h : k' = k
    · simp [mapGet, h]
    · simp [mapGet, h, ih, Ne.symm h]

theorem mapGet_isSome_iff (m : ShareMap) (k : String) :
    (mapGet m k).isSome ↔ k ∈ m.map Prod.fst := by
  rw [← not_iff_not, ← mapGet_eq_none_iff]
  cases mapGet m k <;> simp

theorem mapSet_of_not_mem (m : ShareMap) (k : String) (v : Share)
    (h : k ∉ m.map Prod.fst) : mapSet m k v = m ++ [(k, v)] := by
  induction m with
  | nil => rfl
  | cons e m ih =>
    obtain ⟨k', v'⟩ := e
    simp only [List.map_cons, List.mem_cons, not_or] at h
    simp [mapSet, Ne.symm h.1, ih h.2]

theorem mapGet_mapSet_self (m : ShareMap) (k : String) (v : Share) :
    mapGet (mapSet m k v) k = some v := by
  induction m with
  | nil => simp [mapSet, mapGet]
  | cons e m ih =>
    obtain ⟨k', v'⟩ := e
    by_cases h : k' = k
    · simp [mapSet, mapGet, h]
    · simp [mapSet, mapGet, h, ih]

theorem mapGet_mapSet_of_ne (m : ShareMap) (k k2 : String) (v : Share) (hk : k2 ≠ k) :
    mapGet (mapSet m k v) k2 = mapGet m k2 := by
  induction m with
  | nil => simp [mapSet, mapGet, Ne.symm hk]
  | cons e m ih =>
    obtain ⟨k', v'⟩ := e
    by_cases h : k' = k
    · subst h
      simp [mapSet, mapGet, Ne.symm hk]
    · by_cases h2 : k' = k2
      · subst h2
        simp [mapSet, mapGet, h]
      · simp [mapSet, mapGet, h, h2, ih]

/-! ## Lemmas on the share counter -/

theorem bigOfBytes_bytes (n : BlockNonce) : bigOfBytes n.bytes = (n.Uint64 : Int) := by
  simp only [bigOfBytes, BlockNonce.bytes, List.foldl_cons, List.foldl_nil, BlockNonce.Uint64]
  push_cast
  ring

theorem Uint64_lt (n : BlockNonce) : n.Uint64 < 2 ^ 64 := by
  have h0 := n.b0.isLt
  have h1 := n.b1.isLt
  have h2 := n.b2.isLt
  have h3 := n.b3.isLt
  have h4 := n.b4.isLt
  have h5 := n.b5.isLt
  have h6 := n.b6.isLt
  have h7 := n.b7.isLt
  unfold BlockNonce.Uint64
  omega

theorem Counter_eq (s : Share) : s.Counter = s.Timestamp * 2 ^ 64 + (s.Nonce : Int) := by
  unfold Share.Counter Share.Nonce
  rw [bigOfBytes_bytes]
  have h := Int.shiftLeft_eq_mul_pow s.Timestamp 64
  simp only [Nat.cast_ofNat] at h
  rw [h]
  norm_num

theorem Counter_lt_of_Timestamp_lt (a b : Share) (h : a.Timestamp < b.Timestamp) :
    a.Counter < b.Counter := by
  rw [Counter_eq, Counter_eq]
  have ha := Uint64_lt a.nonce
  have hb := Uint64_lt b.nonce
  unfold Share.Nonce
  omega

/-! ## The loop of `getCurrentClaim` -/

theorem Claim_AddShare_shareIndex (c : Claim) (s : Share) :
    (c.AddShare s).shareIndex = c.shareIndex := by
  unfold Claim.AddShare
  split <;> rfl

theorem Claim_addShares_cons (c : Claim) (s : Share) (ss : List Share) :
    c.addShares (s :: ss) = (c.AddShare s).addShares ss := rfl

theorem Claim_addShares_shareIndex (c : Claim) (ss : List Share) :
    (c.addShares ss).shareIndex = c.shareIndex := by
  induction ss generalizing c with
  | nil => rfl
  | cons s ss ih => rw [Claim_addShares_cons, ih, Claim_AddShare_shareIndex]

theorem Claim_addShares_sublist (c : Claim) (ss : List Share) :
    ∃ kept, kept.Sublist ss ∧ (c.addShares ss).shares = c.shares ++ kept := by
  induction ss generalizing c with
  | nil => exact ⟨[], List.Sublist.refl _, by simp [Claim.addShares]⟩
  | cons s ss ih =>
    obtain ⟨kept, hk, he⟩ := ih (c.AddShare s)
    rw [Claim_addShares_cons, he]
    by_cases h : s.Counter ∈ c.shares.map Share.Counter
    · refine ⟨kept, hk.cons _, ?_⟩
      simp only [Claim.AddShare, h, if_true]
    · refine ⟨s :: kept, hk.cons₂ _, ?_⟩
      simp only [Claim.AddShare, h, if_false, List.append_assoc, List.singleton_append]

theorem Claim_addShares_nodup (c : Claim) (ss : List Share)
    (h : (c.shares.map Share.Counter).Nodup) :
    ((c.addShares ss).shares.map Share.Counter).Nodup := by
  induction ss generalizing c with
  | nil => exact h
  | cons s ss ih =>
    rw [Claim_addShares_cons]
    apply ih
    by_cases hm : s.Counter ∈ c.shares.map Share.Counter
    · simp only [Claim.AddShare, hm, if_true]
      exact h
    · simp only [Claim.AddShare, hm, if_false, List.map_append, List.map_cons, List.map_nil]
      rw [List.nodup_append]
      refine ⟨h, List.nodup_singleton _, ?_⟩
      intro x hx hx2
      rw [List.mem_singleton] at hx2
      exact hm (hx2 ▸ hx)

theorem Claim_addShares_counters (c : Claim) (ss : List Share) (x : Int) :
    x ∈ (c.addShares ss).shares.map Share.Counter ↔
      x ∈ c.shares.map Share.Counter ∨ x ∈ ss.map Share.Counter := by
  induction ss generalizing c with
  | nil => simp [Claim.addShares]
  | cons s ss ih =>
    rw [Claim_addShares_cons, ih]
    by_cases hm : s.Counter ∈ c.shares.map Share.Counter
    · simp only [Claim.AddShare, hm, if_true, List.map_cons, List.mem_cons]
      constructor
      · rintro (h | h)
        · exact Or.inl h
        · exact Or.inr (Or.inr h)
      · rintro (h | h | h)
        · exact Or.inl h
        · exact Or.inl (h ▸ hm)
        · exact Or.inr h
    · simp only [Claim.AddShare, hm, if_false, List.map_append, List.map_cons, List.map_nil,
        List.mem_append, List.mem_singleton, List.mem_cons]
      tauto

theorem Claim_addShares_of_nodup (c : Claim) (ss : List Share)
    (h : ((c.shares ++ ss).map Share.Counter).Nodup) :
    (c.addShares ss).shares = c.shares ++ ss := by
  induction ss generalizing c with
  | nil => simp [Claim.addShares]
  | cons s ss ih =>
    have hm : s.Counter ∉ c.shares.map Share.Counter := by
      intro hm
      rw [List.map_append, List.map_cons, List.nodup_append] at h
      exact h.2.2 hm (List.mem_cons_self _ _)
    have hadd : c.AddShare s = { c with shares := c.shares ++ [s] } := by
      simp only [Claim.AddShare, hm, if_false]
    rw [Claim_addShares_cons, hadd, ih]
    · simp
    · simpa using h

theorem foldl_claimStep_claim (hashHex : Header → String) (t : Int) (l : ShareMap)
    (acc : Claim × ShareMap) :
    (l.foldl (TimestampClaimRepo.claimStep hashHex t) acc).1
      = acc.1.addShares ((l.filter (olderThan t)).map Prod.snd) := by
  induction l generalizing acc with
  | nil => rfl
  | cons e l ih =>
    rw [List.foldl_cons, ih]
    by_cases h : e.2.Timestamp < t
    · simp [TimestampClaimRepo.claimStep, h, olderThan, Claim_addShares_cons]
    · simp [TimestampClaimRepo.claimStep, h, olderThan]

theorem foldl_claimStep_map (hashHex : Header → String) (t : Int) (l : ShareMap)
    (acc : Claim × ShareMap) (hk : ∀ e ∈ l, e.1 = shareID hashHex e.2)
    (hn : ((acc.2 ++ l).map Prod.fst).Nodup) :
    (l.foldl (TimestampClaimRepo.claimStep hashHex t) acc).2
      = acc.2 ++ l.filter (fun e => !olderThan t e) := by
  induction l generalizing acc with
  | nil => simp
  | cons e l ih =>
    have hkl : ∀ e ∈ l, e.1 = shareID hashHex e.2 := fun x hx => hk x (List.mem_cons_of_mem _ hx)
    have he : e.1 = shareID hashHex e.2 := hk e (List.mem_cons_self _ _)
    rw [List.foldl_cons]
    by_cases h : e.2.Timestamp < t
    · have hacc : TimestampClaimRepo.claimStep hashHex t acc e = (acc.1.AddShare e.2, acc.2) := by
        simp [TimestampClaimRepo.claimStep, h]
      rw [hacc, ih _ hkl]
      · simp [olderThan, h]
      · simp only [List.map_append, List.map_cons] at hn ⊢
        exact hn.sublist (List.Sublist.append_left (List.sublist_cons_self _ _) _)
    · have hnot : e.1 ∉ acc.2.map Prod.fst := by
        simp only [List.map_append, List.map_cons] at hn
        intro hmem
        exact (List.nodup_append.1 hn).2.2 hmem (List.mem_cons_self _ _)
      have hacc : TimestampClaimRepo.claimStep hashHex t acc e = (acc.1, acc.2 ++ [e]) := by
        simp only [TimestampClaimRepo.claimStep, h, if_false]
        rw [← he, mapSet_of_not_mem _ _ _ hnot]
      rw [hacc, ih _ hkl]
      · simp [olderThan, h]
      · simpa using hn

/-! ## The invariant -/

theorem countP_older_add_stamped (t : Int) (l : ShareMap)
    (h : ∀ e ∈ l, e.2.Timestamp ≤ t) :
    l.countP (olderThan t) + l.countP (stampedAt t) = l.length := by
  induction l with
  | nil => simp
  | cons e l ih =>
    have hl := ih (fun x hx => h x (List.mem_cons_of_mem _ hx))
    have he := h e (List.mem_cons_self _ _)
    rcases lt_or_eq_of_le he with h1 | h1
    · have h2 : e.2.Timestamp ≠ t := ne_of_lt h1
      simp [List.countP_cons, olderThan, stampedAt, h1, h2] at hl ⊢
      omega
    · simp [List.countP_cons, olderThan, stampedAt, h1] at hl ⊢
      omega

theorem countP_stamped_of_lt (t t2 : Int) (l : ShareMap)
    (h : ∀ e ∈ l, e.2.Timestamp ≤ t) (ht : t < t2) : l.countP (stampedAt t2) = 0 := by
  rw [List.countP_eq_zero]
  intro e he
  have := h e he
  simp only [stampedAt, decide_eq_true_eq]
  omega

theorem countP_older_of_lt (t t2 : Int) (l : ShareMap)
    (h : ∀ e ∈ l, e.2.Timestamp ≤ t) (ht : t < t2) : l.countP (olderThan t2) = l.length := by
  rw [List.countP_eq_length]
  intro e he
  have := h e he
  simp only [olderThan, decide_eq_true_eq]
  omega

theorem inv_emptyRepo (hashHex : Header → String) (diff : Int) (miner coinbase : String) :
    Inv hashHex (emptyRepo diff miner coinbase) := by
  constructor <;> simp [SmartPool.emptyRepo]

theorem AddShare_accepted_eq (hashHex : Header → String) (cr : TimestampClaimRepo) (s : Share)
    (hc : s.BlockHeader.Coinbase = cr.coinbase) (hd : s.ShareDifficulty = cr.diff)
    (hn : shareID hashHex s ∉ cr.activeShares.map Prod.fst) :
    TimestampClaimRepo.AddShare hashHex cr s =
      (none,
        if s.Timestamp = cr.recentTimestamp then
          { cr with
            activeShares := cr.activeShares ++ [(shareID hashHex s, s)]
            noRecentShares := (cr.noRecentShares + 1) % 2 ^ 64 }
        else if s.Timestamp < cr.recentTimestamp then
          { cr with
            activeShares := cr.activeShares ++ [(shareID hashHex s, s)]
            noShares := (cr.noShares + 1) % 2 ^ 64 }
        else
          { cr with
            activeShares := cr.activeShares ++ [(shareID hashHex s, s)]
            noShares := (cr.noShares + cr.noRecentShares) % 2 ^ 64
            noRecentShares := 1
            recentTimestamp := s.Timestamp }) := by
  have hg : mapGet cr.activeShares (shareID hashHex s) = none :=
    (mapGet_eq_none_iff _ _).2 hn
  unfold TimestampClaimRepo.AddShare
  simp only [hc, hd, hg, mapSet_of_not_mem _ _ _ hn, ne_eq, not_true_eq_false, if_false,
    Option.isSome_none, Bool.false_eq_true]
  by_cases h1 : s.Timestamp = cr.recentTimestamp
  · simp [h1]
  · by_cases h2 : s.Timestamp < cr.recentTimestamp
    · simp [h1, h2]
    · have h3 : s.Timestamp > cr.recentTimestamp := by omega
      simp [h1, h2, h3]

theorem AddShare_rejected_eq (hashHex : Header → String) (cr : TimestampClaimRepo) (s : Share)
    (h : ¬ (s.BlockHeader.Coinbase = cr.coinbase ∧ s.ShareDifficulty = cr.diff ∧
      shareID hashHex s ∉ cr.activeShares.map Prod.fst)) :
    (TimestampClaimRepo.AddShare hashHex cr s).2 = cr := by
  unfold TimestampClaimRepo.AddShare
  by_cases hc : s.BlockHeader.Coinbase = cr.coinbase
  · by_cases hd : s.ShareDifficulty = cr.diff
    · have hm : shareID hashHex s ∈ cr.activeShares.map Prod.fst := by
        by_contra hm
        exact h ⟨hc, hd, hm⟩
      have hs := (mapGet_isSome_iff _ _).2 hm
      simp [hc, hd, hs]
    · simp [hc, hd]
  · simp [hc]

theorem inv_AddShare {hashHex : Header → String} {cr : TimestampClaimRepo}
    (h : Inv hashHex cr) (s : Share) :
    Inv hashHex (TimestampClaimRepo.AddShare hashHex cr s).2 := by
  by_cases hok : s.BlockHeader.Coinbase = cr.coinbase ∧ s.ShareDifficulty = cr.diff ∧
      shareID hashHex s ∉ cr.activeShares.map Prod.fst
  · obtain ⟨hc, hd, hn⟩ := hok
    rw [AddShare_accepted_eq hashHex cr s hc hd hn]
    have hkeys : ∀ e ∈ cr.activeShares ++ [(shareID hashHex s, s)], e.1 = shareID hashHex e.2 := by
      intro e he
      rcases List.mem_append.1 he with he | he
      · exact h.keys e he
      · simp only [List.mem_singleton] at he
        subst he
        rfl
    have hnodup : ((cr.activeShares ++ [(shareID hashHex s, s)]).map Prod.fst).Nodup := by
      rw [List.map_append, List.nodup_append]
      refine ⟨h.nodup, by simp, ?_⟩
      intro a ha hb
      simp only [List.map_cons, List.map_nil, List.mem_singleton] at hb
      subst hb
      exact hn ha
    have hcnt := countP_older_add_stamped cr.recentTimestamp cr.activeShares h.le
    have hrec := h.recent
    have hold := h.older
    by_cases h1 : s.Timestamp = cr.recentTimestamp
    · rw [if_pos h1]
      refine ⟨hkeys, hnodup, ?_, ?_, ?_, ?_⟩
      · intro e he
        rcases List.mem_append.1 he with he | he
        · exact h.le e he
        · simp only [List.mem_singleton] at he
          subst he
          exact le_of_eq h1
      · exact Or.inr ⟨(shareID hashHex s, s), by simp, h1⟩
      · simp only [List.countP_append, List.countP_cons, List.countP_nil, stampedAt, h1,
          decide_True, if_true]
        simp only [stampedAt] at hrec
        omega
      · simp only [List.countP_append, List.countP_cons, List.countP_nil, olderThan, h1,
          lt_self_iff_false, decide_False]
        simp only [olderThan] at hold
        simpa using hold
    · rw [if_neg h1]
      by_cases h2 : s.Timestamp < cr.recentTimestamp
      · rw [if_pos h2]
        refine ⟨hkeys, hnodup, ?_, ?_, ?_, ?_⟩
        · intro e he
          rcases List.mem_append.1 he with he | he
          · exact h.le e he
          · simp only [List.mem_singleton] at he
            subst he
            exact le_of_lt h2
        · rcases h.top with ht | ⟨e, he, ht⟩
          · exact Or.inl ht
          · exact Or.inr ⟨e, List.mem_append_left _ he, ht⟩
        · simp only [List.countP_append, List.countP_cons, List.countP_nil, stampedAt, h1,
            decide_False]
          simp only [stampedAt] at hrec
          simpa using hrec
        · simp only [List.countP_append, List.countP_cons, List.countP_nil, olderThan, h2,
            decide_True, if_true]
          simp only [olderThan] at hold
          omega
      · rw [if_neg h2]
        have h3 : cr.recentTimestamp < s.Timestamp := by omega
        refine ⟨hkeys, hnodup, ?_, ?_, ?_, ?_⟩
        · intro e he
          rcases List.mem_append.1 he with he | he
          · exact le_of_lt (lt_of_le_of_lt (h.le e he) h3)
          · simp only [List.mem_singleton] at he
            subst he
            exact le_refl _
        · exact Or.inr ⟨(shareID hashHex s, s), by simp, rfl⟩
        · have hz := countP_stamped_of_lt cr.recentTimestamp s.Timestamp cr.activeShares h.le h3
          simp only [List.countP_append, List.countP_cons, List.countP_nil, hz]
          simp [stampedAt]
        · have hz := countP_older_of_lt cr.recentTimestamp s.Timestamp cr.activeShares h.le h3
          simp only [List.countP_append, List.countP_cons, List.countP_nil, hz]
          simp only [olderThan, lt_self_iff_false, decide_False]
          simp only [Bool.false_eq_true, if_false, Nat.add_zero, Nat.zero_add]
          rw [hrec, hold, ← hcnt]
          omega
  · rw [AddShare_rejected_eq hashHex cr s hok]
    exact h

theorem currentClaim_nil_eq (hashHex : Header → String) (cr : TimestampClaimRepo)
    (threshold : Int) (order : ShareMap) (h : cr.noShares < uint64OfInt threshold) :
    TimestampClaimRepo.GetCurrentClaim hashHex cr threshold order = (none, cr) := by
  simp [TimestampClaimRepo.GetCurrentClaim, TimestampClaimRepo.getCurrentClaim, h]

theorem currentClaim_some_eq (hashHex : Header → String) (cr : TimestampClaimRepo)
    (threshold : Int) (order : ShareMap) (h : ¬ cr.noShares < uint64OfInt threshold)
    (hk : ∀ e ∈ order, e.1 = shareID hashHex e.2) (hn : (order.map Prod.fst).Nodup) :
    TimestampClaimRepo.GetCurrentClaim hashHex cr threshold order =
      (some (NewClaim.addShares ((order.filter (olderThan cr.recentTimestamp)).map Prod.snd)),
        { cr with
          activeShares := order.filter (fun e => !olderThan cr.recentTimestamp e)
          noShares := 0 }) := by
  have h1 := foldl_claimStep_claim hashHex cr.recentTimestamp order (NewClaim, [])
  have h3 := foldl_claimStep_map hashHex cr.recentTimestamp order (NewClaim, []) hk
    (by simpa using hn)
  simp only [TimestampClaimRepo.GetCurrentClaim, TimestampClaimRepo.getCurrentClaim, h, if_false]
  generalize List.foldl (TimestampClaimRepo.claimStep hashHex cr.recentTimestamp)
    (NewClaim, []) order = r at h1 h3
  obtain ⟨c, m⟩ := r
  simp only [List.nil_append] at h1 h3
  subst h1 h3
  rfl

theorem claim_eq_addShares {hashHex : Header → String} {cr : TimestampClaimRepo}
    {threshold : Int} {order : ShareMap} {c : Claim}
    (hc : (TimestampClaimRepo.GetCurrentClaim hashHex cr threshold order).1 = some c) :
    c = NewClaim.addShares ((order.filter (olderThan cr.recentTimestamp)).map Prod.snd) := by
  by_cases hlt : cr.noShares < uint64OfInt threshold
  · rw [currentClaim_nil_eq hashHex cr threshold order hlt] at hc
    exact absurd hc (by simp)
  · simp only [TimestampClaimRepo.GetCurrentClaim, TimestampClaimRepo.getCurrentClaim, hlt,
      if_false, Option.some.injEq] at hc
    rw [← hc, foldl_claimStep_claim]

theorem claim_shares_sublist {hashHex : Header → String} {cr : TimestampClaimRepo}
    {threshold : Int} {order : ShareMap} {c : Claim}
    (hc : (TimestampClaimRepo.GetCurrentClaim hashHex cr threshold order).1 = some c) :
    c.shares.Sublist ((order.filter (olderThan cr.recentTimestamp)).map Prod.snd) := by
  rw [claim_eq_addShares hc]
  obtain ⟨kept, hk, he⟩ := Claim_addShares_sublist NewClaim
    ((order.filter (olderThan cr.recentTimestamp)).map Prod.snd)
  rw [he]
  exact hk

theorem uint64OfInt_of_nonneg (x : Int) (h0 : 0 ≤ x) (h : IsGoInt x) :
    (uint64OfInt x : Int) = x := by
  unfold uint64OfInt
  unfold IsGoInt at h
  have h1 : x % 2 ^ 64 = x := Int.emod_eq_of_lt h0 (by omega)
  rw [h1]
  exact Int.toNat_of_nonneg h0

theorem inv_GetCurrentClaim {hashHex : Header → String} {cr : TimestampClaimRepo}
    (h : Inv hashHex cr) (threshold : Int) (order : ShareMap)
    (hp : order.Perm cr.activeShares) :
    Inv hashHex (TimestampClaimRepo.GetCurrentClaim hashHex cr threshold order).2 := by
  by_cases hlt : cr.noShares < uint64OfInt threshold
  · rw [currentClaim_nil_eq hashHex cr threshold order hlt]
    exact h
  · have hk : ∀ e ∈ order, e.1 = shareID hashHex e.2 := fun e he => h.keys e (hp.mem_iff.1 he)
    have hn : (order.map Prod.fst).Nodup := (hp.map Prod.fst).nodup_iff.2 h.nodup
    rw [currentClaim_some_eq hashHex cr threshold order hlt hk hn]
    refine ⟨?_, ?_, ?_, ?_, ?_, ?_⟩
    · intro e he
      exact hk e (List.mem_filter.1 he).1
    · exact hn.sublist ((List.filter_sublist _).map Prod.fst)
    · intro e he
      exact h.le e (hp.mem_iff.1 (List.mem_filter.1 he).1)
    · rcases h.top with ht | ⟨e, he, ht⟩
      · exact Or.inl ht
      · refine Or.inr ⟨e, List.mem_filter.2 ⟨hp.mem_iff.2 he, ?_⟩, ht⟩
        simp [olderThan, ht]
    · have hrec := h.recent
      rw [← hp.countP_eq] at hrec
      rw [hrec]
      simp only [List.countP_filter]
      congr 1
      apply List.countP_congr
      intro e _
      simp only [stampedAt, olderThan, Bool.and_eq_true, decide_eq_true_eq,
        Bool.not_eq_true', decide_eq_false_iff_not]
      constructor
      · intro he
        exact ⟨he, by omega⟩
      · intro he
        exact he.1
    · have hz : List.countP (olderThan cr.recentTimestamp)
          (order.filter (fun e => !olderThan cr.recentTimestamp e)) = 0 := by
        rw [List.countP_eq_zero]
        intro e he
        have := (List.mem_filter.1 he).2
        simpa using this
      simp only [hz]
      rfl

theorem inv_of_reachable {hashHex : Header → String} {diff : Int} {miner coinbase : String}
    {cr : TimestampClaimRepo} (h : Reachable hashHex diff miner coinbase cr) :
    Inv hashHex cr := by
  induction h with
  | empty => exact inv_emptyRepo hashHex diff miner coinbase
  | addShare s _ ih => exact inv_AddShare ih s
  | getCurrentClaim threshold order _ hp ih => exact inv_GetCurrentClaim ih threshold order hp

theorem reachable_addShares {hashHex : Header → String} {diff : Int} {miner coinbase : String}
    {cr : TimestampClaimRepo} (h : Reachable hashHex diff miner coinbase cr) (ss : List Share) :
    Reachable hashHex diff miner coinbase (addShares hashHex cr ss) := by
  induction ss generalizing cr with
  | nil => exact h
  | cons s ss ih => exact ih (h.addShare s)

theorem inv_counts {hashHex : Header → String} {cr : TimestampClaimRepo}
    (h : Inv hashHex cr) (hb : cr.activeShares.length < 2 ^ 64) :
    cr.noRecentShares = cr.activeShares.countP (stampedAt cr.recentTimestamp) ∧
    cr.noShares = cr.activeShares.countP (olderThan cr.recentTimestamp) ∧
    cr.noShares + cr.noRecentShares = cr.activeShares.length := by
  have hcnt := countP_older_add_stamped cr.recentTimestamp cr.activeShares h.le
  have hrec := h.recent
  have hold := h.older
  have h1 : cr.activeShares.countP (stampedAt cr.recentTimestamp) < 2 ^ 64 := by omega
  have h2 : cr.activeShares.countP (olderThan cr.recentTimestamp) < 2 ^ 64 := by omega
  rw [Nat.mod_eq_of_lt h1] at hrec
  rw [Nat.mod_eq_of_lt h2] at hold
  exact ⟨hrec, hold, by omega⟩

/-! ## `AddShare` -/

/-- C1: a share that passes validation (coinbase and difficulty match, shareID not a key
of activeShares) is accepted and inserted under its shareID, and the counters follow
the timestamp rule: an equal timestamp grows noRecentShares by 1, a smaller one grows
noShares by 1, a larger one folds noRecentShares into noShares, sets noRecentShares
to 1 and moves recentTimestamp. The uint64 counters are taken below their wrap-around:
they count the entries of the in-memory map. -/
theorem AddShare_timestamp_rule (hashHex : Header → String) (cr : TimestampClaimRepo)
    (s : Share) (hc : s.BlockHeader.Coinbase = cr.coinbase)
    (hd : s.ShareDifficulty = cr.diff)
    (hn : shareID hashHex s ∉ cr.activeShares.map Prod.fst)
    (hb : cr.noShares + cr.noRecentShares + 1 < 2 ^ 64) :
    (AddShare hashHex cr s).1 = none ∧
    (AddShare hashHex cr s).2.activeShares = cr.activeShares ++ [(shareID hashHex s, s)] ∧
    mapGet (AddShare hashHex cr s).2.activeShares (shareID hashHex s) = some s ∧
    (∀ k, k ≠ shareID hashHex s →
      mapGet (AddShare hashHex cr s).2.activeShares k = mapGet cr.activeShares k) ∧
    (s.Timestamp = cr.recentTimestamp →
      (AddShare hashHex cr s).2.noRecentShares = cr.noRecentShares + 1 ∧
      (AddShare hashHex cr s).2.noShares = cr.noShares ∧
      (AddShare hashHex cr s).2.recentTimestamp = cr.recentTimestamp) ∧
    (s.Timestamp < cr.recentTimestamp →
      (AddShare hashHex cr s).2.noShares = cr.noShares + 1 ∧
      (AddShare hashHex cr s).2.noRecentShares = cr.noRecentShares ∧
      (AddShare hashHex cr s).2.recentTimestamp = cr.recentTimestamp) ∧
    (s.Timestamp > cr.recentTimestamp →
      (AddShare hashHex cr s).2.noShares = cr.noShares + cr.noRecentShares ∧
      (AddShare hashHex cr s).2.noRecentShares = 1 ∧
      (AddShare hashHex cr s).2.recentTimestamp = s.Timestamp) := by
  have hmap : (AddShare hashHex cr s).2.activeShares
      = cr.activeShares ++ [(shareID hashHex s, s)] := by
    rw [AddShare_accepted_eq hashHex cr s hc hd hn]
    split_ifs <;> rfl
  have h1 : (cr.noRecentShares + 1) % 2 ^ 64 = cr.noRecentShares + 1 :=
    Nat.mod_eq_of_lt (by omega)
  have h2 : (cr.noShares + 1) % 2 ^ 64 = cr.noShares + 1 := Nat.mod_eq_of_lt (by omega)
  have h3 : (cr.noShares + cr.noRecentShares) % 2 ^ 64 = cr.noShares + cr.noRecentShares :=
    Nat.mod_eq_of_lt (by omega)
  refine ⟨?_, hmap, ?_, ?_, ?_, ?_, ?_⟩
  · rw [AddShare_accepted_eq hashHex cr s hc hd hn]
  · rw [hmap, ← mapSet_of_not_mem _ _ _ hn]
    exact mapGet_mapSet_self _ _ _
  · intro k hk
    rw [hmap, ← mapSet_of_not_mem _ _ _ hn]
    exact mapGet_mapSet_of_ne _ _ _ _ hk
  · intro ht
    rw [AddShare_accepted_eq hashHex cr s hc hd hn, if_pos ht]
    exact ⟨h1, rfl, rfl⟩
  · intro ht
    rw [AddShare_accepted_eq hashHex cr s hc hd hn, if_neg (ne_of_lt ht), if_pos ht]
    exact ⟨h2, rfl, rfl⟩
  · intro ht
    rw [AddShare_accepted_eq hashHex cr s hc hd hn, if_neg (ne_of_gt ht),
      if_neg (not_lt_of_gt ht)]
    exact ⟨h3, rfl, rfl⟩

/-- Scenario A for C1: after timestamps 100 and 100, the share with timestamp 200 is accepted
and leaves noShares = 2, noRecentShares = 1, recentTimestamp = 200. -/
theorem AddShare_timestamp_rule_witness :
    (AddShare demoHash (addShares demoHash demoRepo [demoShare 1 100, demoShare 2 100])
      (demoShare 3 200)).1 = none ∧
    demoRepoA.noShares = 2 ∧ demoRepoA.noRecentShares = 1 ∧
    demoRepoA.recentTimestamp = 200 := by
  have h := AddShare_timestamp_rule demoHash
    (addShares demoHash demoRepo [demoShare 1 100, demoShare 2 100]) (demoShare 3 200)
    (by decide) (by decide) (by decide) (by decide)
  obtain ⟨h1, _, _, _, _, _, h7⟩ := h
  obtain ⟨h8, h9, h10⟩ := h7 (by decide)
  exact ⟨h1, h8.trans (by decide), h9, h10.trans (by decide)⟩

/-- C2: AddShare returns the inconsistent-coinbase error when the coinbase of the share
differs from the configured contract, otherwise the inconsistent-difficulty error when
the share difficulty differs from the configured one, otherwise the duplicated-share
error when the shareID is already a key of activeShares, and no error exactly when none
of the three holds. -/
theorem AddShare_error_order (hashHex : Header → String) (cr : TimestampClaimRepo)
    (s : Share) :
    (s.BlockHeader.Coinbase ≠ cr.coinbase →
      (AddShare hashHex cr s).1
        = some (.inconsistentCoinbase s.BlockHeader.Coinbase cr.coinbase)) ∧
    (s.BlockHeader.Coinbase = cr.coinbase → s.ShareDifficulty ≠ cr.diff →
      (AddShare hashHex cr s).1
        = some (.inconsistentDifficulty cr.diff s.ShareDifficulty)) ∧
    (s.BlockHeader.Coinbase = cr.coinbase → s.ShareDifficulty = cr.diff →
      shareID hashHex s ∈ cr.activeShares.map Prod.fst →
      (AddShare hashHex cr s).1 = some .duplicatedShare) ∧
    ((AddShare hashHex cr s).1 = none ↔
      (s.BlockHeader.Coinbase = cr.coinbase ∧ s.ShareDifficulty = cr.diff ∧
        shareID hashHex s ∉ cr.activeShares.map Prod.fst)) := by
  have e1 : s.BlockHeader.Coinbase ≠ cr.coinbase → (AddShare hashHex cr s).1
      = some (.inconsistentCoinbase s.BlockHeader.Coinbase cr.coinbase) := by
    intro hc
    simp [AddShare, hc]
  have e2 : s.BlockHeader.Coinbase = cr.coinbase → s.ShareDifficulty ≠ cr.diff →
      (AddShare hashHex cr s).1
        = some (.inconsistentDifficulty cr.diff s.ShareDifficulty) := by
    intro hc hd
    simp [AddShare, hc, hd]
  have e3 : s.BlockHeader.Coinbase = cr.coinbase → s.ShareDifficulty = cr.diff →
      shareID hashHex s ∈ cr.activeShares.map Prod.fst →
      (AddShare hashHex cr s).1 = some .duplicatedShare := by
    intro hc hd hm
    have hs := (mapGet_isSome_iff _ _).2 hm
    simp [AddShare, hc, hd, hs]
  refine ⟨e1, e2, e3, ?_, ?_⟩
  · intro hnone
    by_cases hc : s.BlockHeader.Coinbase = cr.coinbase
    · by_cases hd : s.ShareDifficulty = cr.diff
      · refine ⟨hc, hd, ?_⟩
        intro hm
        rw [e3 hc hd hm] at hnone
        exact absurd hnone (by simp)
      · rw [e2 hc hd] at hnone
        exact absurd hnone (by simp)
    · rw [e1 hc] at hnone
      exact absurd hnone (by simp)
  · rintro ⟨hc, hd, hn⟩
    rw [AddShare_accepted_eq hashHex cr s hc hd hn]

/-- C3: when AddShare returns an error the repository is unchanged, every field of it:
activeShares, recentTimestamp, noShares, noRecentShares, activeClaims, openClaims. -/
theorem AddShare_error_keeps_state (hashHex : Header → String) (cr : TimestampClaimRepo)
    (s : Share) (h : (AddShare hashHex cr s).1 ≠ none) :
    (AddShare hashHex cr s).2 = cr := by
  apply AddShare_rejected_eq
  rintro ⟨hc, hd, hn⟩
  apply h
  rw [AddShare_accepted_eq hashHex cr s hc hd hn]

/-- Scenario C for C3: the same share added twice is a duplicate the second time, and the
repository after the second call is the one after the first. -/
theorem AddShare_error_keeps_state_witness :
    (AddShare demoHash (AddShare demoHash demoRepo (demoShare 1 100)).2 (demoShare 1 100)).1
      = some .duplicatedShare ∧
    (AddShare demoHash (AddShare demoHash demoRepo (demoShare 1 100)).2 (demoShare 1 100)).2
      = (AddShare demoHash demoRepo (demoShare 1 100)).2 :=
  ⟨by decide,
    AddShare_error_keeps_state demoHash (AddShare demoHash demoRepo (demoShare 1 100)).2
      (demoShare 1 100) (by decide)⟩

/-- C4: from an empty repository, after every sequence of AddShare calls, accepted or
rejected, noShares + noRecentShares is the number of entries of activeShares, and so is
NoActiveShares(). The map has fewer than 2 ^ 64 entries, as every Go map has. -/
theorem addShares_counts_entries (hashHex : Header → String) (diff : Int)
    (miner coinbase : String) (ss : List Share)
    (hb : (addShares hashHex (emptyRepo diff miner coinbase) ss).activeShares.length < 2 ^ 64) :
    (addShares hashHex (emptyRepo diff miner coinbase) ss).noShares
      + (addShares hashHex (emptyRepo diff miner coinbase) ss).noRecentShares
      = (addShares hashHex (emptyRepo diff miner coinbase) ss).activeShares.length ∧
    (addShares hashHex (emptyRepo diff miner coinbase) ss).NoActiveShares
      = (addShares hashHex (emptyRepo diff miner coinbase) ss).activeShares.length := by
  have hr : Reachable hashHex diff miner coinbase
      (addShares hashHex (emptyRepo diff miner coinbase) ss) := reachable_addShares Reachable.empty ss
  have hc := (inv_counts (inv_of_reachable hr) hb).2.2
  refine ⟨hc, ?_⟩
  unfold NoActiveShares
  rw [hc]
  exact Nat.mod_eq_of_lt hb

/-- Scenario A for C4: after timestamps 100, 100, 200 the three entries are counted. -/
theorem addShares_counts_entries_witness :
    demoRepoA.activeShares.length < 2 ^ 64 ∧
    demoRepoA.noShares + demoRepoA.noRecentShares = demoRepoA.activeShares.length ∧
    demoRepoA.NoActiveShares = demoRepoA.activeShares.length :=
  ⟨by decide,
    addShares_counts_entries demoHash 1000 "0xM" "0xC"
      [demoShare 1 100, demoShare 2 100, demoShare 3 200] (by decide)⟩

/-! ## The counters in the reachable states -/

/-- A timestamp below every header timestamp: a share whose `*big.Int` timestamp is -1,
added to the empty repository, is counted as an older share, and recentTimestamp stays at
its initial 0 while the maximum over activeShares is -1. -/
theorem recentTimestamp_negative_timestamp :
    Reachable demoHash 1000 "0xM" "0xC" (AddShare demoHash demoRepo (demoShare 1 (-1))).2 ∧
    (AddShare demoHash demoRepo (demoShare 1 (-1))).2.activeShares ≠ [] ∧
    (AddShare demoHash demoRepo (demoShare 1 (-1))).2.recentTimestamp = 0 ∧
    ((AddShare demoHash demoRepo (demoShare 1 (-1))).2.activeShares.map
      (fun e => e.2.Timestamp)).maximum = ((-1 : Int) : WithBot Int) ∧
    ((AddShare demoHash demoRepo (demoShare 1 (-1))).2.activeShares.map
      (fun e => e.2.Timestamp)).maximum
      ≠ (((AddShare demoHash demoRepo (demoShare 1 (-1))).2.recentTimestamp : Int) :
          WithBot Int) := by
  have hmax : ((AddShare demoHash demoRepo (demoShare 1 (-1))).2.activeShares.map
      (fun e => e.2.Timestamp)).maximum = ((-1 : Int) : WithBot Int) := by
    rw [List.maximum_eq_coe_iff]
    decide
  refine ⟨Reachable.addShare _ Reachable.empty, by decide, by decide, hmax, ?_⟩
  rw [hmax]
  intro h
  have h2 := WithBot.coe_injective h
  revert h2
  decide

theorem recentTimestamp_max_of_nonneg (hashHex : Header → String) (diff : Int)
    (miner coinbase : String) (cr : TimestampClaimRepo)
    (hr : Reachable hashHex diff miner coinbase cr)
    (hpos : ∃ e ∈ cr.activeShares, 0 ≤ e.2.Timestamp) :
    (cr.activeShares.map (fun e => e.2.Timestamp)).maximum
      = ((cr.recentTimestamp : Int) : WithBot Int) := by
  have hi := inv_of_reachable hr
  rw [List.maximum_eq_coe_iff]
  constructor
  · rcases hi.top with h0 | ⟨e, he, ht⟩
    · obtain ⟨e, he, hpe⟩ := hpos
      have hle := hi.le e he
      exact List.mem_map.2 ⟨e, he, by omega⟩
    · exact List.mem_map.2 ⟨e, he, ht⟩
  · intro a ha
    obtain ⟨e, he, rfl⟩ := List.mem_map.1 ha
    exact hi.le e he

/-- C5: in every state reachable from an empty repository by any interleaving of AddShare
and GetCurrentClaim calls, if activeShares is non-empty then recentTimestamp is the
maximum header timestamp over the shares of activeShares: some active share has it and
none has a larger one. Header timestamps are non-negative. -/
theorem recentTimestamp_is_max (hashHex : Header → String) (diff : Int)
    (miner coinbase : String) (cr : TimestampClaimRepo)
    (hr : Reachable hashHex diff miner coinbase cr)
    (hne : cr.activeShares ≠ [])
    (hnn : ∀ e ∈ cr.activeShares, 0 ≤ e.2.Timestamp) :
    (cr.activeShares.map (fun e => e.2.Timestamp)).maximum
      = ((cr.recentTimestamp : Int) : WithBot Int) ∧
    (∃ e ∈ cr.activeShares, e.2.Timestamp = cr.recentTimestamp) ∧
    ∀ e ∈ cr.activeShares, e.2.Timestamp ≤ cr.recentTimestamp := by
  obtain ⟨e, he⟩ := List.exists_mem_of_ne_nil _ hne
  have hmax := recentTimestamp_max_of_nonneg hashHex diff miner coinbase cr hr
    ⟨e, he, hnn e he⟩
  refine ⟨hmax, ?_, (inv_of_reachable hr).le⟩
  have hmem := (List.maximum_eq_coe_iff.1 hmax).1
  obtain ⟨x, hx, hxe⟩ := List.mem_map.1 hmem
  exact ⟨x, hx, hxe⟩

/-- Scenario A for C5: after timestamps 100, 100, 200 the recent timestamp 200 is the
maximum over the three active shares. -/
theorem recentTimestamp_is_max_witness :
    demoRepoA.activeShares.length = 3 ∧ demoRepoA.recentTimestamp = 200 ∧
    (demoRepoA.activeShares.map (fun e => e.2.Timestamp)).maximum
      = ((demoRepoA.recentTimestamp : Int) : WithBot Int) :=
  ⟨by decide, by decide,
    (recentTimestamp_is_max demoHash 1000 "0xM" "0xC" demoRepoA
      (reachable_addShares Reachable.empty _) (by decide) (by decide)).1⟩

/-- C6: in every state reachable from an empty repository by AddShare and GetCurrentClaim
calls, noRecentShares is the number of active shares whose timestamp equals
recentTimestamp and noShares the number of those whose timestamp is strictly less. The
map has fewer than 2 ^ 64 entries, as every Go map has. -/
theorem counters_count_shares (hashHex : Header → String) (diff : Int)
    (miner coinbase : String) (cr : TimestampClaimRepo)
    (hr : Reachable hashHex diff miner coinbase cr)
    (hb : cr.activeShares.length < 2 ^ 64) :
    cr.noRecentShares
      = (cr.activeShares.filter (fun e => e.2.Timestamp = cr.recentTimestamp)).length ∧
    cr.noShares
      = (cr.activeShares.filter (fun e => e.2.Timestamp < cr.recentTimestamp)).length := by
  have h := inv_counts (inv_of_reachable hr) hb
  rw [h.1, h.2.1, List.countP_eq_length_filter, List.countP_eq_length_filter]
  exact ⟨rfl, rfl⟩

/-- Scenario A for C6, after a claim was built: one share at the recent timestamp 200 is
active and none is older. -/
theorem counters_count_shares_witness :
    (GetCurrentClaim demoHash demoRepoA 2 demoRepoA.activeShares).2.activeShares.length
      < 2 ^ 64 ∧
    (GetCurrentClaim demoHash demoRepoA 2 demoRepoA.activeShares).2.noRecentShares = 1 ∧
    (GetCurrentClaim demoHash demoRepoA 2 demoRepoA.activeShares).2.noShares = 0 := by
  have h := counters_count_shares demoHash 1000 "0xM" "0xC"
    (GetCurrentClaim demoHash demoRepoA 2 demoRepoA.activeShares).2
    (Reachable.getCurrentClaim 2 demoRepoA.activeShares (reachable_addShares Reachable.empty _)
      (List.Perm.refl _)) (by decide)
  exact ⟨by decide, h.1.trans (by decide), h.2.trans (by decide)⟩

/-! ## `GetCurrentClaim` -/

/-- C7: when noShares is below the threshold, GetCurrentClaim returns nil and leaves the
repository unchanged, every field of it. -/
theorem GetCurrentClaim_below_threshold (hashHex : Header → String)
    (cr : TimestampClaimRepo) (threshold : Int) (order : ShareMap)
    (hi : IsGoInt threshold) (h : (cr.noShares : Int) < threshold) :
    GetCurrentClaim hashHex cr threshold order = (none, cr) := by
  apply currentClaim_nil_eq
  have h0 : 0 ≤ threshold := by omega
  have hu := uint64OfInt_of_nonneg threshold h0 hi
  omega

/-- Scenario B for C7: after timestamps 50 and 60, GetCurrentClaim(2) returns nil and the
repository is unchanged. -/
theorem GetCurrentClaim_below_threshold_witness :
    demoRepoB.noShares = 1 ∧ demoRepoB.noRecentShares = 1 ∧
    GetCurrentClaim demoHash demoRepoB 2 demoRepoB.activeShares = (none, demoRepoB) :=
  ⟨by decide, by decide,
    GetCurrentClaim_below_threshold demoHash demoRepoB 2 demoRepoB.activeShares
      (by decide) (by decide)⟩

/-- C8, refuted as stated: in Scenario A noShares = 2 is at least the threshold -1, yet
GetCurrentClaim(-1) returns nil, because the threshold is compared as a uint64. -/
theorem GetCurrentClaim_reached_counterexample :
    IsGoInt (-1) ∧ (demoRepoA.noShares : Int) ≥ -1 ∧
    GetCurrentClaim demoHash demoRepoA (-1) demoRepoA.activeShares = (none, demoRepoA) := by
  decide

/-- C8, amended: when 0 <= threshold <= noShares, in a repository whose map keys are the
shareIDs of their shares, GetCurrentClaim returns a claim whose shares are active shares
with timestamp < recentTimestamp, in the order visited, one for each counter of such a
share; they are exactly the active shares with timestamp < recentTimestamp when the
counters of these are pairwise distinct. Afterwards activeShares holds exactly the
other entries, noShares is 0 and every other field is unchanged; when no active share
was newer than recentTimestamp, the shares that stay are those at recentTimestamp. -/
theorem GetCurrentClaim_reached_threshold (hashHex : Header → String)
    (cr : TimestampClaimRepo) (threshold : Int) (order : ShareMap)
    (hi : IsGoInt threshold) (h0 : 0 ≤ threshold) (h : threshold ≤ (cr.noShares : Int))
    (hp : order.Perm cr.activeShares)
    (hk : ∀ e ∈ cr.activeShares, e.1 = shareID hashHex e.2)
    (hn : (cr.activeShares.map Prod.fst).Nodup) :
    ∃ c, (GetCurrentClaim hashHex cr threshold order).1 = some c ∧
      c.shares.Sublist
        ((order.filter (fun e => e.2.Timestamp < cr.recentTimestamp)).map Prod.snd) ∧
      (c.shares.map Share.Counter).Nodup ∧
      (∀ e ∈ cr.activeShares, e.2.Timestamp < cr.recentTimestamp →
        e.2.Counter ∈ c.shares.map Share.Counter) ∧
      (((cr.activeShares.filter (fun e => e.2.Timestamp < cr.recentTimestamp)).map
          (fun e => e.2.Counter)).Nodup →
        c.shares.Perm
          ((cr.activeShares.filter (fun e => e.2.Timestamp < cr.recentTimestamp)).map
            Prod.snd)) ∧
      (GetCurrentClaim hashHex cr threshold order).2.activeShares.Perm
        (cr.activeShares.filter (fun e => ¬ e.2.Timestamp < cr.recentTimestamp)) ∧
      (GetCurrentClaim hashHex cr threshold order).2
        = { cr with
            activeShares := (GetCurrentClaim hashHex cr threshold order).2.activeShares
            noShares := 0 } ∧
      ((∀ e ∈ cr.activeShares, e.2.Timestamp ≤ cr.recentTimestamp) →
        ∀ e ∈ (GetCurrentClaim hashHex cr threshold order).2.activeShares,
          e.2.Timestamp = cr.recentTimestamp) := by
  have hu := uint64OfInt_of_nonneg threshold h0 hi
  have hge : ¬ cr.noShares < uint64OfInt threshold := by omega
  have hko : ∀ e ∈ order, e.1 = shareID hashHex e.2 := fun e he => hk e (hp.mem_iff.1 he)
  have hno : (order.map Prod.fst).Nodup := (hp.map Prod.fst).nodup_iff.2 hn
  have hold : (order.filter (olderThan cr.recentTimestamp)).Perm
      (cr.activeShares.filter (olderThan cr.recentTimestamp)) := hp.filter _
  rw [currentClaim_some_eq hashHex cr threshold order hge hko hno]
  refine ⟨_, rfl, ?_, ?_, ?_, ?_, ?_, rfl, ?_⟩
  · obtain ⟨kept, hkept, he⟩ := Claim_addShares_sublist NewClaim
      ((order.filter (olderThan cr.recentTimestamp)).map Prod.snd)
    rw [he]
    exact hkept
  · exact Claim_addShares_nodup NewClaim _ List.nodup_nil
  · intro e he hlt
    rw [Claim_addShares_counters]
    refine Or.inr (List.mem_map.2 ⟨e.2, List.mem_map.2 ⟨e, ?_, rfl⟩, rfl⟩)
    exact List.mem_filter.2 ⟨hp.mem_iff.2 he, by simpa [olderThan] using hlt⟩
  · intro hnd
    have hnd2 : ((order.filter (olderThan cr.recentTimestamp)).map
        (fun e => e.2.Counter)).Nodup := (hold.map _).nodup_iff.2 hnd
    rw [Claim_addShares_of_nodup NewClaim _ (by simpa [NewClaim, List.map_map] using hnd2)]
    exact hold.map Prod.snd
  · have hf : (fun e : String × Share => !olderThan cr.recentTimestamp e)
        = (fun e => decide (¬ e.2.Timestamp < cr.recentTimestamp)) := by
      funext e
      by_cases hx : e.2.Timestamp < cr.recentTimestamp <;> simp [olderThan, hx]
    simp only [hf]
    exact hp.filter _
  · intro hle e he
    have hm := List.mem_filter.1 he
    have h1 := hle e (hp.mem_iff.1 hm.1)
    have h2 : ¬ e.2.Timestamp < cr.recentTimestamp := by simpa [olderThan] using hm.2
    omega

/-- Scenario A for C8, with the nonces 1, 2, 3: after timestamps 100, 100, 200,
GetCurrentClaim(2) returns the two shares of timestamp 100 and the share of timestamp 200
stays active, with noShares = 0 and noRecentShares = 1. -/
theorem GetCurrentClaim_reached_threshold_witness :
    (GetCurrentClaim demoHash demoRepoS 2 demoRepoS.activeShares).1
      = some { shares := [demoShareNonce 1 1 100, demoShareNonce 2 2 100],
               shareIndex := none } ∧
    (GetCurrentClaim demoHash demoRepoS 2 demoRepoS.activeShares).2.activeShares
      = [(shareID demoHash (demoShareNonce 3 3 200), demoShareNonce 3 3 200)] ∧
    (GetCurrentClaim demoHash demoRepoS 2 demoRepoS.activeShares).2.noShares = 0 ∧
    (GetCurrentClaim demoHash demoRepoS 2 demoRepoS.activeShares).2.noRecentShares = 1 ∧
    ∃ c, (GetCurrentClaim demoHash demoRepoS 2 demoRepoS.activeShares).1 = some c ∧
      (c.shares.map Share.Counter).Nodup ∧
      c.shares.Perm
        ((demoRepoS.activeShares.filter
          (fun e => e.2.Timestamp < demoRepoS.recentTimestamp)).map Prod.snd) := by
  obtain ⟨c, hc, _, hnd, _, hperm, _⟩ := GetCurrentClaim_reached_threshold demoHash demoRepoS 2
    demoRepoS.activeShares (by decide) (by decide) (by decide) (List.Perm.refl _)
    (by decide) (by decide)
  refine ⟨by decide, by decide, by decide, by decide, c, hc, hnd, hperm ?_⟩
  have h1 : (demoShareNonce 1 1 100).Counter ≠ (demoShareNonce 2 2 100).Counter := by
    rw [Counter_eq, Counter_eq]
    decide
  have hl : (demoRepoS.activeShares.filter
      (fun e => e.2.Timestamp < demoRepoS.recentTimestamp)).map (fun e => e.2.Counter)
      = [(demoShareNonce 1 1 100).Counter, (demoShareNonce 2 2 100).Counter] := by
    decide
  rw [hl]
  simp [h1]

/-- C9, refuted as stated: on the empty repository, where noShares = 0, GetCurrentClaim(0)
returns a claim, the one without shares, and not nil. -/
theorem GetCurrentClaim_zero_counterexample :
    demoRepo.noShares = 0 ∧
    (GetCurrentClaim demoHash demoRepo 0 demoRepo.activeShares).1 = some NewClaim ∧
    (GetCurrentClaim demoHash demoRepo 0 demoRepo.activeShares).1 ≠ none := by
  decide

/-- C9, amended: with noShares = 0, GetCurrentClaim(0) returns a claim and not nil, since
the threshold 0 is met; in a state reachable from an empty repository, with fewer than
2 ^ 64 active shares, that claim has no shares and the call changes nothing but the order
in which the map lists its entries. -/
theorem GetCurrentClaim_zero_threshold (hashHex : Header → String)
    (cr : TimestampClaimRepo) (order : ShareMap) (h0 : cr.noShares = 0) :
    ∃ c, (GetCurrentClaim hashHex cr 0 order).1 = some c ∧
      ∀ diff miner coinbase, Reachable hashHex diff miner coinbase cr →
        order.Perm cr.activeShares → cr.activeShares.length < 2 ^ 64 →
        c.shares = [] ∧
        (GetCurrentClaim hashHex cr 0 order).2 = { cr with activeShares := order } := by
  have hge : ¬ cr.noShares < uint64OfInt 0 := by
    simp [uint64OfInt]
  refine ⟨(order.foldl (claimStep hashHex cr.recentTimestamp) (NewClaim, [])).1, ?_, ?_⟩
  · simp [GetCurrentClaim, getCurrentClaim, hge]
  · intro diff miner coinbase hr hp hb
    have hi := inv_of_reachable hr
    have hko : ∀ e ∈ order, e.1 = shareID hashHex e.2 :=
      fun e he => hi.keys e (hp.mem_iff.1 he)
    have hno : (order.map Prod.fst).Nodup := (hp.map Prod.fst).nodup_iff.2 hi.nodup
    have hz : order.countP (olderThan cr.recentTimestamp) = 0 := by
      rw [hp.countP_eq, ← (inv_counts hi hb).2.1, h0]
    have hnone : ∀ e ∈ order, ¬ olderThan cr.recentTimestamp e = true :=
      List.countP_eq_zero.1 hz
    have hf1 : order.filter (olderThan cr.recentTimestamp) = [] :=
      List.filter_eq_nil_iff.2 hnone
    have hf2 : order.filter (fun e => !olderThan cr.recentTimestamp e) = order := by
      rw [List.filter_eq_self]
      intro e he
      simpa using hnone e he
    have hg := currentClaim_some_eq hashHex cr 0 order hge hko hno
    rw [hf1, hf2] at hg
    have hfold : (order.foldl (claimStep hashHex cr.recentTimestamp) (NewClaim, [])).1
        = { shares := [], shareIndex := none } := by
      have := congrArg Prod.fst hg
      simpa [GetCurrentClaim, getCurrentClaim, hge] using this
    refine ⟨by rw [hfold], ?_⟩
    rw [hg]
    simp [h0.symm]

/-- Two shares at the recent timestamp for C9: after two shares of timestamp 100 noShares
is 0 and noRecentShares is 2; GetCurrentClaim(0) returns the claim without shares and
leaves the repository, its two active shares included, as it is. -/
theorem GetCurrentClaim_zero_threshold_witness :
    demoRepoT.noShares = 0 ∧ demoRepoT.noRecentShares = 2 ∧
    demoRepoT.activeShares.length = 2 ∧
    ∃ c, (GetCurrentClaim demoHash demoRepoT 0 demoRepoT.activeShares).1 = some c ∧
      c.shares = [] ∧
      (GetCurrentClaim demoHash demoRepoT 0 demoRepoT.activeShares).2 = demoRepoT := by
  obtain ⟨c, hc, h⟩ := GetCurrentClaim_zero_threshold demoHash demoRepoT
    demoRepoT.activeShares (by decide)
  have h2 := h 1000 "0xM" "0xC" (reachable_addShares Reachable.empty _) (List.Perm.refl _)
    (by decide)
  exact ⟨by decide, by decide, by decide, c, hc, h2.1, h2.2⟩

theorem GetCurrentClaim_size_le (hashHex : Header → String) (diff : Int)
    (miner coinbase : String) (cr : TimestampClaimRepo) (threshold : Int) (order : ShareMap)
    (c : Claim) (hr : Reachable hashHex diff miner coinbase cr)
    (hp : order.Perm cr.activeShares)
    (hb : cr.activeShares.length < 2 ^ 64)
    (hc : (GetCurrentClaim hashHex cr threshold order).1 = some c) :
    c.shares.length ≤ cr.noShares ∧
    (((cr.activeShares.filter (fun e => e.2.Timestamp < cr.recentTimestamp)).map
        (fun e => e.2.Counter)).Nodup → c.shares.length = cr.noShares) := by
  have hinv := inv_of_reachable hr
  have hlen : ((order.filter (olderThan cr.recentTimestamp)).map Prod.snd).length
      = cr.noShares := by
    rw [List.length_map, ← List.countP_eq_length_filter, hp.countP_eq,
      ← (inv_counts hinv hb).2.1]
  have hold : (order.filter (olderThan cr.recentTimestamp)).Perm
      (cr.activeShares.filter (olderThan cr.recentTimestamp)) := hp.filter _
  constructor
  · rw [← hlen]
    exact (claim_shares_sublist hc).length_le
  · intro hnd
    have hnd2 : ((order.filter (olderThan cr.recentTimestamp)).map
        (fun e => e.2.Counter)).Nodup := (hold.map _).nodup_iff.2 hnd
    rw [claim_eq_addShares hc,
      Claim_addShares_of_nodup NewClaim _ (by simpa [NewClaim, List.map_map] using hnd2)]
    simpa [NewClaim] using hlen

theorem short_claim_any_order (order : ShareMap) (hp : order.Perm demoRepoA.activeShares) :
    ∃ c, (GetCurrentClaim demoHash demoRepoA 2 order).1 = some c ∧ c.shares.length = 1 := by
  have hge : ¬ demoRepoA.noShares < uint64OfInt 2 := by decide
  have hc : (GetCurrentClaim demoHash demoRepoA 2 order).1
      = some (NewClaim.addShares
          ((order.filter (olderThan demoRepoA.recentTimestamp)).map Prod.snd)) := by
    simp only [GetCurrentClaim, getCurrentClaim, hge, if_false, foldl_claimStep_claim]
  refine ⟨_, hc, ?_⟩
  have hnd := Claim_addShares_nodup NewClaim
    ((order.filter (olderThan demoRepoA.recentTimestamp)).map Prod.snd) List.nodup_nil
  have hall : ∀ e ∈ demoRepoA.activeShares.filter (olderThan demoRepoA.recentTimestamp),
      e.2.Counter = (demoShare 1 100).Counter := by decide
  have hmem : (shareID demoHash (demoShare 1 100), demoShare 1 100)
      ∈ demoRepoA.activeShares.filter (olderThan demoRepoA.recentTimestamp) := by decide
  have hold : (order.filter (olderThan demoRepoA.recentTimestamp)).Perm
      (demoRepoA.activeShares.filter (olderThan demoRepoA.recentTimestamp)) := hp.filter _
  have hone : ∀ x ∈ (NewClaim.addShares
      ((order.filter (olderThan demoRepoA.recentTimestamp)).map Prod.snd)).shares.map
        Share.Counter, x = (demoShare 1 100).Counter := by
    intro x hx
    rcases (Claim_addShares_counters NewClaim _ x).1 hx with h | h
    · simp [NewClaim] at h
    · obtain ⟨s, hs, rfl⟩ := List.mem_map.1 h
      obtain ⟨e, he, rfl⟩ := List.mem_map.1 hs
      exact hall e (hold.mem_iff.1 he)
  have hin : (demoShare 1 100).Counter ∈ (NewClaim.addShares
      ((order.filter (olderThan demoRepoA.recentTimestamp)).map Prod.snd)).shares.map
        Share.Counter := by
    rw [Claim_addShares_counters]
    exact Or.inr (List.mem_map.2 ⟨_, List.mem_map.2 ⟨_, hold.mem_iff.2 hmem, rfl⟩, rfl⟩)
  have hrep := List.eq_replicate_iff.2 ⟨rfl, hone⟩
  rw [hrep, List.nodup_replicate] at hnd
  rw [List.length_map] at hnd
  have hpos : 0 < ((NewClaim.addShares
      ((order.filter (olderThan demoRepoA.recentTimestamp)).map Prod.snd)).shares.map
        Share.Counter).length := List.length_pos_of_mem hin
  rw [List.length_map] at hpos
  omega

/-- C10, the code at the failing input: in Scenario A the two shares of timestamp 100 have
different headers, so both are accepted and counted, and the same nonce 7, so they have
one counter. With three active shares and noShares = 2 the threshold 2 is met, and the
claim GetCurrentClaim(2) returns holds one share, fewer than the threshold and than
noShares: the first of the two visited, here in the order of insertion and in the reverse
order. The other share is in no claim and no longer active. -/
theorem GetCurrentClaim_short_claim :
    Reachable demoHash 1000 "0xM" "0xC" demoRepoA ∧
    demoRepoA.activeShares.length = 3 ∧
    demoRepoA.noShares = 2 ∧
    shareID demoHash (demoShare 1 100) ≠ shareID demoHash (demoShare 2 100) ∧
    (demoShare 1 100).Counter = (demoShare 2 100).Counter ∧
    (GetCurrentClaim demoHash demoRepoA 2 demoRepoA.activeShares).1
      = some { shares := [demoShare 1 100], shareIndex := none } ∧
    ({ shares := [demoShare 1 100], shareIndex := none } : Claim).NumShares < 2 ∧
    (GetCurrentClaim demoHash demoRepoA 2 demoRepoA.activeShares).2.activeShares
      = [(shareID demoHash (demoShare 3 200), demoShare 3 200)] ∧
    (GetCurrentClaim demoHash demoRepoA 2 demoRepoA.activeShares.reverse).1
      = some { shares := [demoShare 2 100], shareIndex := none } ∧
    (GetCurrentClaim demoHash demoRepoA 2 demoRepoA.activeShares.reverse).2.activeShares
      = [(shareID demoHash (demoShare 3 200), demoShare 3 200)] := by
  refine ⟨reachable_addShares Reachable.empty _, by decide, by decide, by decide, rfl,
    by decide, by decide, by decide, by decide, by decide⟩

/-! ## The share counter -/

/-- C12: for every share with a non-negative timestamp t and its 8-byte nonce, read
big-endian as n with 0 <= n < 2 ^ 64, Counter() is t * 2 ^ 64 + n, and this is the
bitwise form (t << 64) | n. -/
theorem Counter_identity (s : Share) (h : 0 ≤ s.Timestamp) :
    s.Nonce < 2 ^ 64 ∧
    s.NonceBig = (s.Nonce : Int) ∧
    s.Counter = s.Timestamp * 2 ^ 64 + (s.Nonce : Int) ∧
    s.Counter = Int.lor (s.Timestamp <<< (64 : Int)) (s.Nonce : Int) := by
  have hn : s.Nonce < 2 ^ 64 := Uint64_lt s.nonce
  refine ⟨hn, bigOfBytes_bytes s.nonce, Counter_eq s, ?_⟩
  rw [Counter_eq]
  obtain ⟨t, ht⟩ := Int.eq_ofNat_of_zero_le h
  rw [ht]
  have h1 : ((t : Int) <<< (64 : Int)) = ((t <<< 64 : Nat) : Int) :=
    Int.shiftLeft_coe_nat t 64
  rw [h1]
  have h2 : Int.lor ((t <<< 64 : Nat) : Int) (s.Nonce : Int) = ((t <<< 64 ||| s.Nonce : Nat) : Int) :=
    rfl
  rw [h2, Nat.shiftLeft_eq, Nat.mul_comm t, ← Nat.mul_add_lt_is_or hn t]
  push_cast
  ring

/-- A share of timestamp 100 and nonce 7 for C12: the counter is 100 * 2 ^ 64 + 7 in
both forms. -/
theorem Counter_identity_witness :
    (0 : Int) ≤ (demoShare 1 100).Timestamp ∧
    (demoShare 1 100).Nonce = 7 ∧
    (demoShare 1 100).Counter = 100 * 2 ^ 64 + 7 ∧
    (demoShare 1 100).Counter
      = Int.lor ((demoShare 1 100).Timestamp <<< (64 : Int)) ((demoShare 1 100).Nonce : Int) := by
  have h := Counter_identity (demoShare 1 100) (by decide)
  exact ⟨by decide, by decide, h.2.2.1.trans (by decide), h.2.2.2⟩


/-! ## The shares of a claim -/

theorem shareID_eq_of_header_counter (hashHex : Header → String) (a b : Share)
    (hh : a.blockHeader = b.blockHeader) (hc : a.Counter = b.Counter) :
    shareID hashHex a = shareID hashHex b := by
  rw [Counter_eq, Counter_eq] at hc
  have ht : a.Timestamp = b.Timestamp := by
    unfold Share.Timestamp
    rw [hh]
  rw [ht] at hc
  have hn : a.Nonce = b.Nonce := by omega
  unfold shareID Share.BlockHeader
  rw [hh, hn]

/-- C11, the code at the failing input: after timestamps 10, 20, 30 the first claim holds
the shares of timestamps 10 and 20; the share of timestamp 5 that comes next is accepted
and makes up the second claim, and its counter is below those of the first claim. -/
theorem successive_claims_out_of_order :
    (GetCurrentClaim demoHash demoRepoF1 1 demoRepoF1.activeShares).1
      = some { shares := [demoShare 1 10, demoShare 2 20], shareIndex := none } ∧
    (AddShare demoHash
      (GetCurrentClaim demoHash demoRepoF1 1 demoRepoF1.activeShares).2 (demoShare 4 5)).1
      = none ∧
    (GetCurrentClaim demoHash demoRepoF2 1 demoRepoF2.activeShares).1
      = some { shares := [demoShare 4 5], shareIndex := none } ∧
    (demoShare 4 5).Counter < (demoShare 1 10).Counter ∧
    (demoShare 4 5).Counter < (demoShare 2 20).Counter := by
  refine ⟨by decide, by decide, by decide, ?_, ?_⟩
  · exact Counter_lt_of_Timestamp_lt _ _ (by decide)
  · exact Counter_lt_of_Timestamp_lt _ _ (by decide)

theorem claim_shareIDs_distinct (hashHex : Header → String) (diff : Int)
    (miner coinbase : String) (cr : TimestampClaimRepo) (threshold : Int) (order : ShareMap)
    (c : Claim) (hr : Reachable hashHex diff miner coinbase cr)
    (hp : order.Perm cr.activeShares)
    (hc : (GetCurrentClaim hashHex cr threshold order).1 = some c) :
    (c.shares.map (shareID hashHex)).Nodup := by
  have hinv := inv_of_reachable hr
  have hko : ∀ e ∈ order, e.1 = shareID hashHex e.2 :=
    fun e he => hinv.keys e (hp.mem_iff.1 he)
  have hno : (order.map Prod.fst).Nodup := (hp.map Prod.fst).nodup_iff.2 hinv.nodup
  have hmap : ((order.filter (olderThan cr.recentTimestamp)).map Prod.snd).map (shareID hashHex)
      = (order.filter (olderThan cr.recentTimestamp)).map Prod.fst := by
    rw [List.map_map]
    apply List.map_congr_left
    intro e he
    exact (hko e (List.mem_filter.1 he).1).symm
  have hall : (((order.filter (olderThan cr.recentTimestamp)).map Prod.snd).map
      (shareID hashHex)).Nodup := by
    rw [hmap]
    exact hno.sublist ((List.filter_sublist _).map Prod.fst)
  exact hall.sublist ((claim_shares_sublist hc).map _)

/-- C13: for every claim returned by GetCurrentClaim, on a repository reachable from empty
or on any other, in any visiting order, the counters of the shares in the claim are
pairwise distinct: no two shares of the claim have the same timestamp and nonce, and the
counters can be put in strictly increasing order. -/
theorem claim_counters_distinct (hashHex : Header → String) (cr : TimestampClaimRepo)
    (threshold : Int) (order : ShareMap) (c : Claim)
    (hc : (GetCurrentClaim hashHex cr threshold order).1 = some c) :
    (c.shares.map Share.Counter).Nodup ∧
    c.shares.Pairwise (fun a b => ¬ (a.Timestamp = b.Timestamp ∧ a.Nonce = b.Nonce)) ∧
    ∃ l : List Int, l.Perm (c.shares.map Share.Counter) ∧ l.Sorted (fun a b => a < b) := by
  have hnd : (c.shares.map Share.Counter).Nodup := by
    rw [claim_eq_addShares hc]
    exact Claim_addShares_nodup NewClaim _ List.nodup_nil
  refine ⟨hnd, ?_, ?_⟩
  · refine (List.pairwise_map.1 hnd).imp ?_
    intro a b hne hab
    apply hne
    rw [Counter_eq, Counter_eq, hab.1, hab.2]
  · refine ⟨(c.shares.map Share.Counter).insertionSort (fun a b => a ≤ b),
      List.perm_insertionSort _ _, ?_⟩
    have hs : ((c.shares.map Share.Counter).insertionSort (fun a b => a ≤ b)).Sorted
        (fun a b => a ≤ b) := List.sorted_insertionSort _ _
    exact hs.lt_of_le ((List.perm_insertionSort _ _).nodup_iff.2 hnd)

/-- Scenario A for C13: with the nonces 1, 2, 3 the claim holds the two shares of timestamp
100, whose counters differ; with the nonce 7 on both, the claim holds one of them. -/
theorem claim_counters_distinct_witness :
    (GetCurrentClaim demoHash demoRepoS 2 demoRepoS.activeShares).1
      = some { shares := [demoShareNonce 1 1 100, demoShareNonce 2 2 100],
               shareIndex := none } ∧
    ([demoShareNonce 1 1 100, demoShareNonce 2 2 100].map Share.Counter).Nodup ∧
    (GetCurrentClaim demoHash demoRepoA 2 demoRepoA.activeShares).1
      = some { shares := [demoShare 1 100], shareIndex := none } :=
  ⟨by decide,
    (claim_counters_distinct demoHash demoRepoS 2 demoRepoS.activeShares
      { shares := [demoShareNonce 1 1 100, demoShareNonce 2 2 100], shareIndex := none }
      (by decide)).1,
    by decide⟩

/-- C14, the code at the failing input: the repository is configured for the miner 0xM;
a share mined by 0xN, with the configured contract and difficulty, is accepted, and
the claim GetCurrentClaim(2) returns holds the share of 0xM, of timestamp 100, and the
share of 0xN, of timestamp 150: two shares with different counters and different miners. -/
theorem claim_mixes_miners :
    demoRepo.miner = "0xM" ∧
    (AddShare demoHash (AddShare demoHash demoRepo (demoShareOf "0xM" 1 100)).2
      (demoShareOf "0xN" 2 150)).1 = none ∧
    Reachable demoHash 1000 "0xM" "0xC" demoRepoM ∧
    (GetCurrentClaim demoHash demoRepoM 2 demoRepoM.activeShares).1
      = some { shares := [demoShareOf "0xM" 1 100, demoShareOf "0xN" 2 150],
               shareIndex := none } ∧
    (demoShareOf "0xM" 1 100).Counter < (demoShareOf "0xN" 2 150).Counter ∧
    (demoShareOf "0xM" 1 100).MinerAddress ≠ (demoShareOf "0xN" 2 150).MinerAddress ∧
    (demoShareOf "0xM" 1 100).ShareDifficulty = (demoShareOf "0xN" 2 150).ShareDifficulty := by
  refine ⟨by decide, by decide, reachable_addShares Reachable.empty _, by decide,
    Counter_lt_of_Timestamp_lt _ _ (by decide), by decide, by decide⟩


/-! ## The claim queues -/

/-- C15: PutOpenClaim(c) appends c at the end of activeClaims and changes nothing else;
RemoveOpenClaim(x) on a non-empty activeClaims removes its last element, whatever x is,
and changes nothing else; so PutOpenClaim(c) followed by RemoveOpenClaim(x) gives back
the repository as it was, openClaims and the share state included. -/
theorem PutOpenClaim_RemoveOpenClaim (cr : TimestampClaimRepo) (c x : Claim) :
    PutOpenClaim cr c = { cr with activeClaims := cr.activeClaims ++ [c] } ∧
    (cr.activeClaims ≠ [] →
      RemoveOpenClaim cr x = .returns { cr with activeClaims := cr.activeClaims.dropLast }) ∧
    (∀ l last, cr.activeClaims = l ++ [last] →
      RemoveOpenClaim cr x = .returns { cr with activeClaims := l }) ∧
    RemoveOpenClaim (PutOpenClaim cr c) x = .returns cr := by
  have hdrop : ∀ l : List Claim, l.take (l.length - 1) = l.dropLast :=
    fun l => (List.dropLast_eq_take l).symm
  refine ⟨rfl, ?_, ?_, ?_⟩
  · intro hne
    have hlen : cr.activeClaims.length ≠ 0 := fun h => hne (List.length_eq_zero.1 h)
    simp only [RemoveOpenClaim, hlen, if_false, hdrop]
  · intro l last hl
    simp [RemoveOpenClaim, hl]
  · simp [RemoveOpenClaim, PutOpenClaim]

/-- C16: after SealClaimBatch() openClaims is the previous activeClaims, same claims in
the same order, activeClaims is empty and no other field changed; GetOpenClaim(i) then
returns the i-th previously active claim for 0 <= i < its length and nil for larger i. -/
theorem SealClaimBatch_snapshot (cr : TimestampClaimRepo) :
    SealClaimBatch cr = { cr with openClaims := cr.activeClaims, activeClaims := [] } ∧
    (SealClaimBatch cr).openClaims = cr.activeClaims ∧
    (SealClaimBatch cr).activeClaims = [] ∧
    (∀ (i : Nat) (h : i < cr.activeClaims.length),
      GetOpenClaim (SealClaimBatch cr) (i : Int)
        = .returns (some (cr.activeClaims.get ⟨i, h⟩))) ∧
    (∀ i : Int, (cr.activeClaims.length : Int) ≤ i →
      GetOpenClaim (SealClaimBatch cr) i = .returns none) := by
  refine ⟨rfl, rfl, rfl, ?_, ?_⟩
  · intro i h
    have h1 : ¬ ((i : Int) ≥ (cr.activeClaims.length : Int)) := by omega
    have h2 : ¬ ((i : Int) < 0) := by omega
    simp only [GetOpenClaim, SealClaimBatch, h1, h2, if_false, Int.toNat_ofNat]
    rw [List.getElem?_eq_getElem h]
    rfl
  · intro i h
    simp only [GetOpenClaim, SealClaimBatch]
    rw [if_pos h]

/-- C17, refuted as stated: with one claim in activeClaims and two in openClaims,
NumOpenClaims() returns 1 although the sealed snapshot holds two claims; and right after
SealClaimBatch() on that batch of one claim it returns 0. -/
theorem NumOpenClaims_counterexample :
    demoRepoQ.openClaims.length = 2 ∧ demoRepoQ.activeClaims.length = 1 ∧
    NumOpenClaims demoRepoQ = 1 ∧
    NumOpenClaims (SealClaimBatch demoRepoQ) = 0 ∧
    (SealClaimBatch demoRepoQ).openClaims.length = 1 := by
  decide

/-- C17, amended: NumOpenClaims() returns the number of claims in activeClaims, the batch
PutOpenClaim appends to and SealClaimBatch has yet to seal, not of the collection
GetOpenClaim indexes; right after SealClaimBatch() it returns 0, and after PutOpenClaim
one more than before. -/
theorem NumOpenClaims_counts_activeClaims (cr : TimestampClaimRepo) (c : Claim) :
    NumOpenClaims cr = cr.activeClaims.length ∧
    NumOpenClaims (SealClaimBatch cr) = 0 ∧
    NumOpenClaims (PutOpenClaim cr c) = NumOpenClaims cr + 1 := by
  refine ⟨rfl, rfl, ?_⟩
  simp [NumOpenClaims, PutOpenClaim]

/-- C18, refuted as stated: with two claims in openClaims, after ResetOpenClaims()
GetOpenClaim(0) still returns the first of them, not nil. -/
theorem ResetOpenClaims_counterexample :
    GetOpenClaim (ResetOpenClaims demoRepoQ) 0
      = .returns (some { shares := [demoShare 2 20], shareIndex := none }) ∧
    GetOpenClaim (ResetOpenClaims demoRepoQ) 0 ≠ .returns none := by
  decide

/-- C18, amended: after ResetOpenClaims() activeClaims is empty and NumOpenClaims()
returns 0; openClaims, the collection GetOpenClaim indexes, is unchanged, so
GetOpenClaim(i) returns what it returned before the call. -/
theorem ResetOpenClaims_clears_activeClaims (cr : TimestampClaimRepo) :
    ResetOpenClaims cr = { cr with activeClaims := [] } ∧
    NumOpenClaims (ResetOpenClaims cr) = 0 ∧
    (ResetOpenClaims cr).openClaims = cr.openClaims ∧
    ∀ i : Int, GetOpenClaim (ResetOpenClaims cr) i = GetOpenClaim cr i :=
  ⟨rfl, rfl, rfl, fun _ => rfl⟩

theorem Op_run_openClaims (hashHex : Header → String) (cr cr2 : TimestampClaimRepo) (op : Op)
    (hseal : op ≠ .sealClaimBatch) (hrun : op.run hashHex cr = .returns cr2) :
    cr2.openClaims = cr.openClaims := by
  cases op with
  | addShare s =>
    simp only [Op.run, Outcome.returns.injEq] at hrun
    subst hrun
    by_cases hok : s.BlockHeader.Coinbase = cr.coinbase ∧ s.ShareDifficulty = cr.diff ∧
        shareID hashHex s ∉ cr.activeShares.map Prod.fst
    · rw [AddShare_accepted_eq hashHex cr s hok.1 hok.2.1 hok.2.2]
      split_ifs <;> rfl
    · rw [AddShare_rejected_eq hashHex cr s hok]
  | getCurrentClaim threshold order =>
    simp only [Op.run, Outcome.returns.injEq] at hrun
    subst hrun
    unfold GetCurrentClaim getCurrentClaim
    split_ifs <;> rfl
  | putOpenClaim claim =>
    simp only [Op.run, Outcome.returns.injEq] at hrun
    subst hrun
    rfl
  | removeOpenClaim claim =>
    simp only [Op.run, RemoveOpenClaim] at hrun
    split_ifs at hrun
    simp only [Outcome.returns.injEq] at hrun
    subst hrun
    rfl
  | getOpenClaim index =>
    simp only [Op.run] at hrun
    split at hrun
    · simp only [Outcome.returns.injEq] at hrun
      subst hrun
      rfl
    · exact absurd hrun (by simp)
  | sealClaimBatch => exact absurd rfl hseal
  | numOpenClaims =>
    simp only [Op.run, Outcome.returns.injEq] at hrun
    subst hrun
    rfl
  | resetOpenClaims =>
    simp only [Op.run, Outcome.returns.injEq] at hrun
    subst hrun
    rfl
  | noActiveShares =>
    simp only [Op.run, Outcome.returns.injEq] at hrun
    subst hrun
    rfl

/-- C19: once sealed, the snapshot is stable until the next seal: every call other than
SealClaimBatch (AddShare, GetCurrentClaim, PutOpenClaim, RemoveOpenClaim,
ResetOpenClaims, GetOpenClaim, NumOpenClaims, NoActiveShares) leaves openClaims
unchanged, and so does every sequence of such calls. -/
theorem openClaims_stable (hashHex : Header → String) (cr cr2 : TimestampClaimRepo)
    (ops : List Op) (hseal : Op.sealClaimBatch ∉ ops)
    (hrun : runOps hashHex cr ops = .returns cr2) :
    cr2.openClaims = cr.openClaims := by
  induction ops generalizing cr with
  | nil =>
    simp only [runOps, Outcome.returns.injEq] at hrun
    rw [hrun]
  | cons op ops ih =>
    simp only [List.mem_cons, not_or] at hseal
    simp only [runOps] at hrun
    cases hop : op.run hashHex cr with
    | returns cr1 =>
      rw [hop] at hrun
      rw [ih cr1 hseal.2 hrun]
      exact Op_run_openClaims hashHex cr cr1 op (Ne.symm hseal.1) hop
    | panics =>
      rw [hop] at hrun
      exact absurd hrun (by simp)

/-- One call of each kind but SealClaimBatch for C19, on a repository with two sealed
claims: the snapshot is the same afterwards. -/
theorem openClaims_stable_witness :
    ∃ cr2, runOps demoHash demoRepoQ
        [.addShare (demoShare 1 10), .addShare (demoShare 2 20), .numOpenClaims,
          .getCurrentClaim 1 [(shareID demoHash (demoShare 1 10), demoShare 1 10),
            (shareID demoHash (demoShare 2 20), demoShare 2 20)],
          .putOpenClaim NewClaim, .removeOpenClaim NewClaim, .getOpenClaim 0,
          .noActiveShares, .resetOpenClaims] = .returns cr2 ∧
      cr2.activeClaims = [] ∧ cr2.openClaims = demoRepoQ.openClaims :=
  ⟨_, rfl, by decide,
    openClaims_stable demoHash demoRepoQ _
      [.addShare (demoShare 1 10), .addShare (demoShare 2 20), .numOpenClaims,
        .getCurrentClaim 1 [(shareID demoHash (demoShare 1 10), demoShare 1 10),
          (shareID demoHash (demoShare 2 20), demoShare 2 20)],
        .putOpenClaim NewClaim, .removeOpenClaim NewClaim, .getOpenClaim 0,
        .noActiveShares, .resetOpenClaims] (by decide) rfl⟩


/-! ## `NewTimestampClaimRepo` -/

theorem scanStep_changedCoinbase (diff : Int) (miner coinbase : String) (t : Int) (acc : Scan)
    (e : String × Share) :
    (scanStep diff miner coinbase t acc e).changedCoinbase
      = (acc.changedCoinbase || decide (e.2.BlockHeader.Coinbase ≠ coinbase)) := by
  unfold scanStep
  by_cases h : e.2.BlockHeader.Coinbase = coinbase
  · simp only [h, ne_eq, not_true_eq_false, if_false, decide_False, Bool.or_false]
    split_ifs <;> rfl
  · simp [h]

theorem foldl_scanStep_changedCoinbase (diff : Int) (miner coinbase : String) (t : Int)
    (l : ShareMap) (acc : Scan) :
    (l.foldl (scanStep diff miner coinbase t) acc).changedCoinbase
      = (acc.changedCoinbase || l.any (fun e => decide (e.2.BlockHeader.Coinbase ≠ coinbase))) := by
  induction l generalizing acc with
  | nil => simp
  | cons e l ih =>
    rw [List.foldl_cons, ih, scanStep_changedCoinbase, List.any_cons, Bool.or_assoc]

theorem scanShares_changedCoinbase (diff : Int) (miner coinbase : String) (shares : ShareMap) :
    (scanShares diff miner coinbase shares).changedCoinbase = true
      ↔ ∃ e ∈ shares, e.2.BlockHeader.Coinbase ≠ coinbase := by
  unfold scanShares
  rw [foldl_scanStep_changedCoinbase]
  simp

theorem NewTimestampClaimRepo_of_changedCoinbase (diff : Int) (miner coinbase : String)
    (storage : PersistentStorage) (answers : List String)
    (h : ∃ e ∈ (loadActiveShares storage).1, e.2.BlockHeader.Coinbase ≠ coinbase) :
    NewTimestampClaimRepo diff miner coinbase storage answers
      = .started
          { activeShares := [], activeClaims := (loadActiveClaims storage).1,
            openClaims := (loadOpenClaims storage).1, recentTimestamp := 0, noShares := 0,
            noRecentShares := 0, diff := diff, miner := miner, coinbase := coinbase } 0 := by
  have hflag := (scanShares_changedCoinbase diff miner coinbase (loadActiveShares storage).1).2 h
  simp only [NewTimestampClaimRepo, hflag, if_true]

/-- C20, the code at the failing input: the stored session holds five active shares for
the contract 0xC1 and one claim in each queue; reopened for the contract 0xC2, whatever
is typed, the repository is built without a prompt, with no active share, both counters
0 and recentTimestamp 0, but with the loaded claim still in activeClaims and the other
one still in openClaims. -/
theorem NewTimestampClaimRepo_keeps_claims (answers : List String) :
    NewTimestampClaimRepo 1000 "0xM" "0xC2" demoStorageD answers
      = .started
          { activeShares := [],
            activeClaims :=
              [{ shares := [(demoGobShare "0xC1" 6 1).toShare], shareIndex := some 0 }],
            openClaims :=
              [{ shares := [(demoGobShare "0xC1" 7 2).toShare], shareIndex := some 0 }],
            recentTimestamp := 0, noShares := 0, noRecentShares := 0, diff := 1000,
            miner := "0xM", coinbase := "0xC2" } 0 ∧
    (loadActiveShares demoStorageD).1.length = 5 ∧
    (∀ e ∈ (loadActiveShares demoStorageD).1, e.2.BlockHeader.Coinbase = "0xC1") := by
  refine ⟨?_, by decide, by decide⟩
  rw [NewTimestampClaimRepo_of_changedCoinbase 1000 "0xM" "0xC2" demoStorageD answers
    (by decide)]
  decide



theorem scanStep_eq (diff : Int) (miner coinbase : String) (t : Int) (acc : Scan)
    (e : String × Share) :
    scanStep diff miner coinbase t acc e =
      { noShares := acc.noShares + (if e.2.Timestamp = t then 0 else 1),
        noRecentShares := acc.noRecentShares + (if e.2.Timestamp = t then 1 else 0),
        changedDiff := acc.changedDiff || decide (e.2.ShareDifficulty ≠ diff),
        changedMiner := acc.changedMiner || decide (e.2.MinerAddress ≠ miner),
        changedCoinbase := acc.changedCoinbase || decide (e.2.BlockHeader.Coinbase ≠ coinbase) } := by
  unfold scanStep
  by_cases h1 : e.2.Timestamp = t <;> by_cases h2 : e.2.ShareDifficulty = diff <;>
    by_cases h3 : e.2.MinerAddress = miner <;>
    by_cases h4 : e.2.BlockHeader.Coinbase = coinbase <;>
    simp [h1, h2, h3, h4]

theorem foldl_scanStep_eq (diff : Int) (miner coinbase : String) (t : Int) (l : ShareMap)
    (acc : Scan) :
    l.foldl (scanStep diff miner coinbase t) acc =
      { noShares := acc.noShares + l.countP (fun e => decide (e.2.Timestamp ≠ t)),
        noRecentShares := acc.noRecentShares + l.countP (stampedAt t),
        changedDiff := acc.changedDiff || l.any (fun e => decide (e.2.ShareDifficulty ≠ diff)),
        changedMiner := acc.changedMiner || l.any (fun e => decide (e.2.MinerAddress ≠ miner)),
        changedCoinbase :=
          acc.changedCoinbase || l.any (fun e => decide (e.2.BlockHeader.Coinbase ≠ coinbase)) } := by
  induction l generalizing acc with
  | nil => simp
  | cons e l ih =>
    rw [List.foldl_cons, ih, scanStep_eq]
    by_cases h1 : e.2.Timestamp = t
    · simp [List.countP_cons, stampedAt, h1, Bool.or_assoc]
      omega
    · simp [List.countP_cons, stampedAt, h1, Bool.or_assoc]
      omega

theorem scanShares_eq (diff : Int) (miner coinbase : String) (shares : ShareMap) :
    scanShares diff miner coinbase shares =
      { noShares := shares.countP (fun e => decide (e.2.Timestamp ≠ scanTimestamp shares)),
        noRecentShares := shares.countP (stampedAt (scanTimestamp shares)),
        changedDiff := shares.any (fun e => decide (e.2.ShareDifficulty ≠ diff)),
        changedMiner := shares.any (fun e => decide (e.2.MinerAddress ≠ miner)),
        changedCoinbase := shares.any (fun e => decide (e.2.BlockHeader.Coinbase ≠ coinbase)) } := by
  unfold scanShares
  rw [foldl_scanStep_eq]
  simp

theorem foldl_timestamp_bounds (l : ShareMap) (init : Int) :
    init ≤ l.foldl (fun cur e => if cur < e.2.Timestamp then e.2.Timestamp else cur) init ∧
    (∀ e ∈ l, e.2.Timestamp
      ≤ l.foldl (fun cur e => if cur < e.2.Timestamp then e.2.Timestamp else cur) init) ∧
    (l.foldl (fun cur e => if cur < e.2.Timestamp then e.2.Timestamp else cur) init = init ∨
      ∃ e ∈ l, e.2.Timestamp
        = l.foldl (fun cur e => if cur < e.2.Timestamp then e.2.Timestamp else cur) init) := by
  induction l generalizing init with
  | nil => simp
  | cons e l ih =>
    simp only [List.foldl_cons]
    by_cases h : init < e.2.Timestamp
    · simp only [h, if_true]
      obtain ⟨h1, h2, h3⟩ := ih e.2.Timestamp
      refine ⟨by omega, ?_, ?_⟩
      · intro x hx
        rcases List.mem_cons.1 hx with hx | hx
        · subst hx
          exact h1
        · exact h2 x hx
      · right
        rcases h3 with h3 | ⟨x, hx, hxe⟩
        · exact ⟨e, List.mem_cons_self _ _, h3.symm⟩
        · exact ⟨x, List.mem_cons_of_mem _ hx, hxe⟩
    · simp only [h, if_false]
      obtain ⟨h1, h2, h3⟩ := ih init
      refine ⟨h1, ?_, ?_⟩
      · intro x hx
        rcases List.mem_cons.1 hx with hx | hx
        · subst hx
          omega
        · exact h2 x hx
      · rcases h3 with h3 | ⟨x, hx, hxe⟩
        · exact Or.inl h3
        · exact Or.inr ⟨x, List.mem_cons_of_mem _ hx, hxe⟩

theorem scanTimestamp_bounds (shares : ShareMap) :
    0 ≤ scanTimestamp shares ∧
    (∀ e ∈ shares, e.2.Timestamp ≤ scanTimestamp shares) ∧
    (scanTimestamp shares = 0 ∨ ∃ e ∈ shares, e.2.Timestamp = scanTimestamp shares) :=
  foldl_timestamp_bounds shares 0

theorem readChoice_append_one (ignored rest : List String) (n : Nat)
    (h : ∀ a ∈ ignored, a ≠ "1" ∧ a ≠ "2") :
    readChoice (ignored ++ "1" :: rest) n = .discard (n + ignored.length + 1) := by
  induction ignored generalizing n with
  | nil => simp [readChoice]
  | cons a l ih =>
    have ha := h a (List.mem_cons_self _ _)
    have hl : ∀ x ∈ l, x ≠ "1" ∧ x ≠ "2" := fun x hx => h x (List.mem_cons_of_mem _ hx)
    rw [List.cons_append, readChoice]
    simp only [ha.1, ha.2, if_false, List.length_cons]
    rw [ih (n + 1) hl]
    congr 1
    omega

theorem readChoice_append_two (ignored rest : List String) (n : Nat)
    (h : ∀ a ∈ ignored, a ≠ "1" ∧ a ≠ "2") :
    readChoice (ignored ++ "2" :: rest) n = .abort (n + ignored.length + 1) := by
  induction ignored generalizing n with
  | nil => simp [readChoice]
  | cons a l ih =>
    have ha := h a (List.mem_cons_self _ _)
    have hl : ∀ x ∈ l, x ≠ "1" ∧ x ≠ "2" := fun x hx => h x (List.mem_cons_of_mem _ hx)
    rw [List.cons_append, readChoice]
    simp only [ha.1, ha.2, if_false, List.length_cons]
    rw [ih (n + 1) hl]
    congr 1
    omega

theorem readChoice_ignored (ignored : List String) (n : Nat)
    (h : ∀ a ∈ ignored, a ≠ "1" ∧ a ≠ "2") :
    readChoice ignored n = .unanswered (n + ignored.length) := by
  induction ignored generalizing n with
  | nil => simp [readChoice]
  | cons a l ih =>
    have ha := h a (List.mem_cons_self _ _)
    have hl : ∀ x ∈ l, x ≠ "1" ∧ x ≠ "2" := fun x hx => h x (List.mem_cons_of_mem _ hx)
    simp only [readChoice, ha.1, ha.2, if_false, List.length_cons]
    rw [ih (n + 1) hl]
    congr 1
    omega

theorem NewTimestampClaimRepo_of_changed (diff : Int) (miner coinbase : String)
    (storage : PersistentStorage) (answers : List String)
    (hcb : ∀ e ∈ (loadActiveShares storage).1, e.2.BlockHeader.Coinbase = coinbase)
    (hch : ∃ e ∈ (loadActiveShares storage).1,
      e.2.MinerAddress ≠ miner ∨ e.2.ShareDifficulty ≠ diff) :
    NewTimestampClaimRepo diff miner coinbase storage answers =
      match readChoice answers 0 with
      | .discard prompts => .started (discarded diff miner coinbase) prompts
      | .abort prompts => .aborted prompts
      | .unanswered prompts => .unanswered prompts := by
  have hs := scanShares_eq diff miner coinbase (loadActiveShares storage).1
  have h1 : (scanShares diff miner coinbase (loadActiveShares storage).1).changedCoinbase
      = false := by
    rw [hs]
    simp only [List.any_eq_false, decide_eq_true_eq, ne_eq, not_not]
    exact hcb
  have h2 : (scanShares diff miner coinbase (loadActiveShares storage).1).changedMiner = true ∨
      (scanShares diff miner coinbase (loadActiveShares storage).1).changedDiff = true := by
    rw [hs]
    obtain ⟨e, he, hor⟩ := hch
    rcases hor with hm | hd
    · left
      simp only [List.any_eq_true, decide_eq_true_eq]
      exact ⟨e, he, hm⟩
    · right
      simp only [List.any_eq_true, decide_eq_true_eq]
      exact ⟨e, he, hd⟩
  unfold NewTimestampClaimRepo
  simp only [h1, Bool.false_eq_true, if_false]
  by_cases hm : (scanShares diff miner coinbase (loadActiveShares storage).1).changedMiner = true
  · simp only [hm, if_true]
  · have hd : (scanShares diff miner coinbase (loadActiveShares storage).1).changedDiff = true := by
      rcases h2 with h | h
      · exact absurd h hm
      · exact h
    simp only [hm, hd, if_true, if_false, Bool.false_eq_true]

/-- C21: when every loaded active share has the configured coinbase and some loaded share
has another miner or another share difficulty, NewTimestampClaimRepo prompts; inputs
other than 1 and 2 are ignored, each followed by a new prompt; on the first input that
is 1 the repository is built with activeShares, activeClaims and openClaims empty,
noShares = noRecentShares = 0 and recentTimestamp = 0; on the first input that is 2 the
process is terminated; and as long as neither comes the loop goes on. -/
theorem NewTimestampClaimRepo_prompts (diff : Int) (miner coinbase : String)
    (storage : PersistentStorage) (ignored rest : List String)
    (hcb : ∀ e ∈ (loadActiveShares storage).1, e.2.BlockHeader.Coinbase = coinbase)
    (hch : ∃ e ∈ (loadActiveShares storage).1,
      e.2.MinerAddress ≠ miner ∨ e.2.ShareDifficulty ≠ diff)
    (hign : ∀ a ∈ ignored, a ≠ "1" ∧ a ≠ "2") :
    NewTimestampClaimRepo diff miner coinbase storage (ignored ++ "1" :: rest)
      = .started
          { activeShares := [], activeClaims := [], openClaims := [], recentTimestamp := 0,
            noShares := 0, noRecentShares := 0, diff := diff, miner := miner,
            coinbase := coinbase } (ignored.length + 1) ∧
    NewTimestampClaimRepo diff miner coinbase storage (ignored ++ "2" :: rest)
      = .aborted (ignored.length + 1) ∧
    NewTimestampClaimRepo diff miner coinbase storage ignored
      = .unanswered ignored.length := by
  refine ⟨?_, ?_, ?_⟩
  · rw [NewTimestampClaimRepo_of_changed diff miner coinbase storage _ hcb hch,
      readChoice_append_one ignored rest 0 hign]
    simp [discarded]
  · rw [NewTimestampClaimRepo_of_changed diff miner coinbase storage _ hcb hch,
      readChoice_append_two ignored rest 0 hign]
    simp
  · rw [NewTimestampClaimRepo_of_changed diff miner coinbase storage _ hcb hch,
      readChoice_ignored ignored 0 hign]
    simp

/-- Scenario E for C21: three shares stored with difficulty 1000, reopened with difficulty
2000; after one ignored input, 1 gives the empty repository and 2 ends the process, each
at the second prompt. -/
theorem NewTimestampClaimRepo_prompts_witness :
    NewTimestampClaimRepo 2000 "0xM" "0xC" demoStorageE ["yes", "1"]
      = .started
          { activeShares := [], activeClaims := [], openClaims := [], recentTimestamp := 0,
            noShares := 0, noRecentShares := 0, diff := 2000, miner := "0xM",
            coinbase := "0xC" } 2 ∧
    NewTimestampClaimRepo 2000 "0xM" "0xC" demoStorageE ["yes", "2"] = .aborted 2 ∧
    NewTimestampClaimRepo 2000 "0xM" "0xC" demoStorageE ["yes"] = .unanswered 1 :=
  NewTimestampClaimRepo_prompts 2000 "0xM" "0xC" demoStorageE ["yes"] [] (by decide)
    (by decide) (by decide)


/-- A timestamp below every header timestamp: the one loaded share matches the
configuration and its `*big.Int` timestamp is -1; the repository is built with
recentTimestamp at the initial 0 of the scan, with noRecentShares 0 and noShares 1. -/
theorem NewTimestampClaimRepo_negative_timestamp :
    (∀ e ∈ (loadActiveShares demoStorageN).1,
      e.2.BlockHeader.Coinbase = "0xC" ∧ e.2.MinerAddress = "0xM" ∧
        e.2.ShareDifficulty = 1000) ∧
    ((loadActiveShares demoStorageN).1.map (fun e => e.2.Timestamp)).maximum
      = ((-1 : Int) : WithBot Int) ∧
    NewTimestampClaimRepo 1000 "0xM" "0xC" demoStorageN []
      = .started
          { activeShares := [("0x1-7", (demoGobShare "0xC" 1 (-1)).toShare)],
            activeClaims := [], openClaims := [], recentTimestamp := 0, noShares := 1,
            noRecentShares := 0, diff := 1000, miner := "0xM", coinbase := "0xC" } 0 := by
  refine ⟨by decide, ?_, by decide⟩
  rw [List.maximum_eq_coe_iff]
  decide

theorem NewTimestampClaimRepo_of_matching (diff : Int) (miner coinbase : String)
    (storage : PersistentStorage) (answers : List String)
    (h : ∀ e ∈ (loadActiveShares storage).1,
      e.2.BlockHeader.Coinbase = coinbase ∧ e.2.MinerAddress = miner ∧
        e.2.ShareDifficulty = diff) :
    ∃ cr, NewTimestampClaimRepo diff miner coinbase storage answers = .started cr 0 ∧
      cr.activeShares = (loadActiveShares storage).1 ∧
      cr.activeClaims = (loadActiveClaims storage).1 ∧
      cr.openClaims = (loadOpenClaims storage).1 ∧
      cr.diff = diff ∧ cr.miner = miner ∧ cr.coinbase = coinbase ∧
      0 ≤ cr.recentTimestamp ∧
      (∀ e ∈ (loadActiveShares storage).1, e.2.Timestamp ≤ cr.recentTimestamp) ∧
      ((∃ e ∈ (loadActiveShares storage).1, 0 ≤ e.2.Timestamp) →
        ((loadActiveShares storage).1.map (fun e => e.2.Timestamp)).maximum
          = ((cr.recentTimestamp : Int) : WithBot Int)) ∧
      ((∀ e ∈ (loadActiveShares storage).1, e.2.Timestamp < 0) → cr.recentTimestamp = 0) ∧
      cr.noRecentShares
        = ((loadActiveShares storage).1.filter
            (fun e => e.2.Timestamp = cr.recentTimestamp)).length ∧
      cr.noShares
        = ((loadActiveShares storage).1.filter
            (fun e => e.2.Timestamp < cr.recentTimestamp)).length ∧
      cr.noShares + cr.noRecentShares = (loadActiveShares storage).1.length := by
  have hs := scanShares_eq diff miner coinbase (loadActiveShares storage).1
  obtain ⟨hb0, hble, hbtop⟩ := scanTimestamp_bounds (loadActiveShares storage).1
  have h1 : (scanShares diff miner coinbase (loadActiveShares storage).1).changedCoinbase
      = false := by
    rw [hs]
    simp only [List.any_eq_false, decide_eq_true_eq, ne_eq, not_not]
    exact fun e he => (h e he).1
  have h2 : (scanShares diff miner coinbase (loadActiveShares storage).1).changedMiner
      = false := by
    rw [hs]
    simp only [List.any_eq_false, decide_eq_true_eq, ne_eq, not_not]
    exact fun e he => (h e he).2.1
  have h3 : (scanShares diff miner coinbase (loadActiveShares storage).1).changedDiff
      = false := by
    rw [hs]
    simp only [List.any_eq_false, decide_eq_true_eq, ne_eq, not_not]
    exact fun e he => (h e he).2.2
  have hrec : (scanShares diff miner coinbase (loadActiveShares storage).1).noRecentShares
      = (loadActiveShares storage).1.countP
          (stampedAt (scanTimestamp (loadActiveShares storage).1)) := by
    rw [hs]
  have hold : (scanShares diff miner coinbase (loadActiveShares storage).1).noShares
      = (loadActiveShares storage).1.countP
          (olderThan (scanTimestamp (loadActiveShares storage).1)) := by
    rw [hs]
    apply List.countP_congr
    intro e he
    have hle := hble e he
    simp only [olderThan, decide_eq_true_eq, ne_eq]
    omega
  have hsum := countP_older_add_stamped (scanTimestamp (loadActiveShares storage).1)
    (loadActiveShares storage).1 hble
  refine ⟨{ activeShares := (loadActiveShares storage).1,
            activeClaims := (loadActiveClaims storage).1,
            openClaims := (loadOpenClaims storage).1,
            recentTimestamp := scanTimestamp (loadActiveShares storage).1,
            noShares := (scanShares diff miner coinbase (loadActiveShares storage).1).noShares,
            noRecentShares :=
              (scanShares diff miner coinbase (loadActiveShares storage).1).noRecentShares,
            diff := diff, miner := miner, coinbase := coinbase },
    ?_, rfl, rfl, rfl, rfl, rfl, rfl, hb0, hble, ?_, ?_, ?_, ?_, ?_⟩
  · unfold NewTimestampClaimRepo
    simp only [h1, h2, h3, Bool.false_eq_true, if_false]
  · rintro ⟨e, he, hpos⟩
    rw [List.maximum_eq_coe_iff]
    constructor
    · rcases hbtop with h0 | ⟨x, hx, hxe⟩
      · have hle := hble e he
        have heq : e.2.Timestamp = scanTimestamp (loadActiveShares storage).1 := by omega
        exact List.mem_map.2 ⟨e, he, heq⟩
      · exact List.mem_map.2 ⟨x, hx, hxe⟩
    · intro a ha
      obtain ⟨x, hx, rfl⟩ := List.mem_map.1 ha
      exact hble x hx
  · intro hneg
    show scanTimestamp (loadActiveShares storage).1 = 0
    rcases hbtop with h0 | ⟨x, hx, hxe⟩
    · exact h0
    · have := hneg x hx
      omega
  · simp only [hrec, List.countP_eq_length_filter]
    rfl
  · simp only [hold, List.countP_eq_length_filter]
    rfl
  · simp only [hrec, hold]
    exact hsum

/-- C22: when every loaded active share matches the configured coinbase, miner and
difficulty, NewTimestampClaimRepo prompts nothing and keeps all loaded shares and claims;
recentTimestamp is the maximum loaded share timestamp, 0 if no share is loaded;
noRecentShares is the number of loaded shares with that timestamp and noShares the number
of those with a smaller one, so that noShares + noRecentShares is the number of loaded
shares. Header timestamps are non-negative. -/
theorem NewTimestampClaimRepo_keeps_session (diff : Int) (miner coinbase : String)
    (storage : PersistentStorage) (answers : List String)
    (h : ∀ e ∈ (loadActiveShares storage).1,
      e.2.BlockHeader.Coinbase = coinbase ∧ e.2.MinerAddress = miner ∧
        e.2.ShareDifficulty = diff)
    (hnn : ∀ e ∈ (loadActiveShares storage).1, 0 ≤ e.2.Timestamp) :
    ∃ cr, NewTimestampClaimRepo diff miner coinbase storage answers = .started cr 0 ∧
      cr.activeShares = (loadActiveShares storage).1 ∧
      cr.activeClaims = (loadActiveClaims storage).1 ∧
      cr.openClaims = (loadOpenClaims storage).1 ∧
      cr.diff = diff ∧ cr.miner = miner ∧ cr.coinbase = coinbase ∧
      ((loadActiveShares storage).1 ≠ [] →
        ((loadActiveShares storage).1.map (fun e => e.2.Timestamp)).maximum
          = ((cr.recentTimestamp : Int) : WithBot Int)) ∧
      ((loadActiveShares storage).1 = [] → cr.recentTimestamp = 0) ∧
      cr.noRecentShares
        = ((loadActiveShares storage).1.filter
            (fun e => e.2.Timestamp = cr.recentTimestamp)).length ∧
      cr.noShares
        = ((loadActiveShares storage).1.filter
            (fun e => e.2.Timestamp < cr.recentTimestamp)).length ∧
      cr.noShares + cr.noRecentShares = (loadActiveShares storage).1.length := by
  obtain ⟨cr, hcr, hsh, hac, hoc, hd, hm, hcb, _, _, hmax, hneg, hrec, hold, hsum⟩ :=
    NewTimestampClaimRepo_of_matching diff miner coinbase storage answers h
  refine ⟨cr, hcr, hsh, hac, hoc, hd, hm, hcb, ?_, ?_, hrec, hold, hsum⟩
  · intro hne
    obtain ⟨e, he⟩ := List.exists_mem_of_ne_nil _ hne
    exact hmax ⟨e, he, hnn e he⟩
  · intro hnil
    apply hneg
    rw [hnil]
    intro e he
    exact absurd he (List.not_mem_nil e)

/-- Scenario E for C22, reopened with the difficulty 1000 it was stored with: the three
shares and the two claims are kept, recentTimestamp is 20, the maximum of the timestamps
10, 20, 20, with two shares at it and one older. -/
theorem NewTimestampClaimRepo_keeps_session_witness :
    ∃ cr, NewTimestampClaimRepo 1000 "0xM" "0xC" demoStorageE [] = .started cr 0 ∧
      cr.activeShares.length = 3 ∧ cr.activeClaims.length = 1 ∧ cr.openClaims.length = 1 ∧
      cr.recentTimestamp = 20 ∧ cr.noRecentShares = 2 ∧ cr.noShares = 1 ∧
      ((loadActiveShares demoStorageE).1.map (fun e => e.2.Timestamp)).maximum
        = ((cr.recentTimestamp : Int) : WithBot Int) := by
  obtain ⟨cr, hcr, _, _, _, _, _, _, hmax, _⟩ :=
    NewTimestampClaimRepo_keeps_session 1000 "0xM" "0xC" demoStorageE [] (by decide)
      (by decide)
  have hcr2 : NewTimestampClaimRepo 1000 "0xM" "0xC" demoStorageE []
      = .started
          { activeShares := (loadActiveShares demoStorageE).1,
            activeClaims := (loadActiveClaims demoStorageE).1,
            openClaims := (loadOpenClaims demoStorageE).1, recentTimestamp := 20,
            noShares := 1, noRecentShares := 2, diff := 1000, miner := "0xM",
            coinbase := "0xC" } 0 := by decide
  rw [hcr2] at hcr
  simp only [Boot.started.injEq, and_true] at hcr
  subst hcr
  exact ⟨_, hcr2, by decide, by decide, by decide, rfl, rfl, rfl, hmax (by decide)⟩

/-! ## The order of the counters -/

theorem Uint64_injective (a b : BlockNonce) (h : a.Uint64 = b.Uint64) : a = b := by
  obtain ⟨a0, a1, a2, a3, a4, a5, a6, a7⟩ := a
  obtain ⟨b0, b1, b2, b3, b4, b5, b6, b7⟩ := b
  simp only [BlockNonce.Uint64] at h
  have h0 := a0.isLt
  have h1 := a1.isLt
  have h2 := a2.isLt
  have h3 := a3.isLt
  have h4 := a4.isLt
  have h5 := a5.isLt
  have h6 := a6.isLt
  have h7 := a7.isLt
  have g0 := b0.isLt
  have g1 := b1.isLt
  have g2 := b2.isLt
  have g3 := b3.isLt
  have g4 := b4.isLt
  have g5 := b5.isLt
  have g6 := b6.isLt
  have g7 := b7.isLt
  have e0 : a0 = b0 := Fin.ext (by omega)
  have e1 : a1 = b1 := Fin.ext (by omega)
  have e2 : a2 = b2 := Fin.ext (by omega)
  have e3 : a3 = b3 := Fin.ext (by omega)
  have e4 : a4 = b4 := Fin.ext (by omega)
  have e5 : a5 = b5 := Fin.ext (by omega)
  have e6 : a6 = b6 := Fin.ext (by omega)
  have e7 : a7 = b7 := Fin.ext (by omega)
  subst e0 e1 e2 e3 e4 e5 e6 e7
  rfl

/-- C25: Counter orders shares lexicographically by timestamp, then nonce, the nonce
read as an 8-byte big-endian integer: a.Counter() < b.Counter() iff a.timestamp <
b.timestamp, or the timestamps are equal and a.nonce < b.nonce; a smaller timestamp gives
a smaller counter whatever the nonces; equal counters come with equal timestamps and
equal nonces. -/
theorem Counter_lexicographic (a b : Share) :
    (a.Counter < b.Counter ↔
      a.Timestamp < b.Timestamp ∨ (a.Timestamp = b.Timestamp ∧ a.Nonce < b.Nonce)) ∧
    (a.Timestamp < b.Timestamp → a.Counter < b.Counter) ∧
    (a.Counter = b.Counter →
      a.Timestamp = b.Timestamp ∧ a.Nonce = b.Nonce ∧ a.nonce = b.nonce) := by
  have ha := Uint64_lt a.nonce
  have hb := Uint64_lt b.nonce
  rw [Counter_eq, Counter_eq]
  unfold Share.Nonce
  refine ⟨?_, ?_, ?_⟩
  · constructor
    · intro h
      omega
    · intro h
      omega
  · intro h
    omega
  · intro h
    have ht : a.Timestamp = b.Timestamp := by omega
    have hn : a.nonce.Uint64 = b.nonce.Uint64 := by omega
    exact ⟨ht, hn, Uint64_injective _ _ hn⟩

/-- C24: in every state reachable from an empty repository by AddShare and
GetCurrentClaim calls, when GetCurrentClaim returns a claim, every share counter in that
claim is strictly less than the counter of every share that remains in activeShares
after the call; timestamps of either sign. -/
theorem claim_counters_below_active (hashHex : Header → String) (diff : Int)
    (miner coinbase : String) (cr : TimestampClaimRepo) (threshold : Int) (order : ShareMap)
    (c : Claim) (hr : Reachable hashHex diff miner coinbase cr)
    (hp : order.Perm cr.activeShares)
    (hc : (GetCurrentClaim hashHex cr threshold order).1 = some c) :
    ∀ s ∈ c.shares, ∀ e ∈ (GetCurrentClaim hashHex cr threshold order).2.activeShares,
      s.Counter < e.2.Counter := by
  have hinv := inv_of_reachable hr
  have hsh := claim_shares_sublist hc
  have hlt : ¬ cr.noShares < uint64OfInt threshold := by
    intro hlt
    rw [currentClaim_nil_eq hashHex cr threshold order hlt] at hc
    exact absurd hc (by simp)
  have hko : ∀ e ∈ order, e.1 = shareID hashHex e.2 :=
    fun e he => hinv.keys e (hp.mem_iff.1 he)
  have hno : (order.map Prod.fst).Nodup := (hp.map Prod.fst).nodup_iff.2 hinv.nodup
  rw [currentClaim_some_eq hashHex cr threshold order hlt hko hno]
  intro s hs e he
  obtain ⟨x, hx, rfl⟩ := List.mem_map.1 (hsh.subset hs)
  have h1 : x.2.Timestamp < cr.recentTimestamp := by
    simpa [olderThan] using (List.mem_filter.1 hx).2
  have h2 : ¬ e.2.Timestamp < cr.recentTimestamp := by
    simpa [olderThan] using (List.mem_filter.1 he).2
  exact Counter_lt_of_Timestamp_lt _ _ (by omega)

/-- Scenario A for C24, with the nonces 1, 2, 3: the two claimed shares of timestamp 100
have counters below that of the share of timestamp 200, which stays active. -/
theorem claim_counters_below_active_witness :
    (GetCurrentClaim demoHash demoRepoS 2 demoRepoS.activeShares).1
      = some { shares := [demoShareNonce 1 1 100, demoShareNonce 2 2 100],
               shareIndex := none } ∧
    (GetCurrentClaim demoHash demoRepoS 2 demoRepoS.activeShares).2.activeShares
      = [(shareID demoHash (demoShareNonce 3 3 200), demoShareNonce 3 3 200)] ∧
    ∀ s ∈ [demoShareNonce 1 1 100, demoShareNonce 2 2 100],
      ∀ e ∈ (GetCurrentClaim demoHash demoRepoS 2 demoRepoS.activeShares).2.activeShares,
        s.Counter < e.2.Counter :=
  ⟨by decide, by decide,
    claim_counters_below_active demoHash 1000 "0xM" "0xC" demoRepoS 2 demoRepoS.activeShares
      { shares := [demoShareNonce 1 1 100, demoShareNonce 2 2 100], shareIndex := none }
      (reachable_addShares Reachable.empty _) (List.Perm.refl _) (by decide)⟩


/-! ## The DAG tree of a share -/

theorem sprintfBinary_length (m : Nat) (hm : m ≠ 0) :
    (sprintfBinary m).length = Nat.log 2 m + 1 := by
  unfold sprintfBinary
  rw [if_neg hm, String.length_mk, List.length_map, List.length_reverse,
    Nat.digits_len 2 m (by norm_num) hm]

theorem clog_two_eq_log_pred (n : Nat) (hn : 2 ≤ n) :
    Nat.clog 2 n = Nat.log 2 (n - 1) + 1 := by
  have hm : n - 1 ≠ 0 := by omega
  apply le_antisymm
  · rw [← Nat.le_pow_iff_clog_le (by norm_num : 1 < 2)]
    have h := Nat.lt_pow_succ_log_self (by norm_num : 1 < 2) (n - 1)
    omega
  · have h : n ≤ 2 ^ Nat.clog 2 n := Nat.le_pow_clog (by norm_num) n
    have h2 : n - 1 < 2 ^ Nat.clog 2 n := by omega
    have h3 := (Nat.lt_pow_iff_log_lt (by norm_num : 1 < 2) hm).1 h2
    omega

/-- C26: buildDagTree registers the stored level with 10 retained levels and with a
depth equal to the number of binary digits of N - 1, where N = DAGSize/128 is the number
of dataset elements; for every N >= 2 that depth is the ceiling of log2 N. DAGSize is a
uint64. -/
theorem storedLevel_depth (fullSize : Nat) (h64 : fullSize < 2 ^ 64) :
    (1 ≤ fullSize / 128 →
      storedLevel fullSize = ((sprintfBinary (fullSize / 128 - 1)).length, 10)) ∧
    (2 ≤ fullSize / 128 →
      (storedLevel fullSize).1 = (Nat.digits 2 (fullSize / 128 - 1)).length ∧
      (storedLevel fullSize).1 = Nat.clog 2 (fullSize / 128) ∧
      (storedLevel fullSize).2 = 10) := by
  have hwrap : ∀ n : Nat, 1 ≤ n → n < 2 ^ 64 → (n + 2 ^ 64 - 1) % 2 ^ 64 = n - 1 := by
    intro n h1 h2
    omega
  have hN : fullSize / 128 < 2 ^ 64 := by omega
  have hlen : ∀ m : Nat, m < 2 ^ 64 → (sprintfBinary m).length < 2 ^ 32 := by
    intro m hm
    by_cases h0 : m = 0
    · subst h0
      decide
    · rw [sprintfBinary_length m h0]
      have := Nat.log_lt_of_lt_pow h0 hm
      omega
  have hfirst : 1 ≤ fullSize / 128 →
      storedLevel fullSize = ((sprintfBinary (fullSize / 128 - 1)).length, 10) := by
    intro h1
    unfold storedLevel
    simp only [hwrap (fullSize / 128) h1 hN]
    rw [Nat.mod_eq_of_lt (hlen (fullSize / 128 - 1) (by omega))]
    norm_num
  refine ⟨hfirst, ?_⟩
  intro h2
  have hm : fullSize / 128 - 1 ≠ 0 := by omega
  rw [hfirst (by omega)]
  refine ⟨?_, ?_, rfl⟩
  · simp only [sprintfBinary, if_neg hm, String.length_mk, List.length_map,
      List.length_reverse]
  · simp only [sprintfBinary_length _ hm, clog_two_eq_log_pred _ h2]

/-- The dataset of epoch 0 for C26, 1073739904 bytes or 8388593 elements: the stored
level is registered at depth 23, the ceiling of log2 8388593, with 10 retained levels. -/
theorem storedLevel_depth_witness :
    1073739904 < 2 ^ 64 ∧ 2 ≤ 1073739904 / 128 ∧
    (storedLevel 1073739904).1 = Nat.clog 2 (1073739904 / 128) ∧
    (storedLevel 1073739904).2 = 10 ∧
    2 ^ 22 < 1073739904 / 128 ∧ 1073739904 / 128 ≤ 2 ^ 23 :=
  ⟨by decide, by decide,
    ((storedLevel_depth 1073739904 (by decide)).2 (by decide)).2.1,
    ((storedLevel_depth 1073739904 (by decide)).2 (by decide)).2.2, by decide, by decide⟩

theorem readElements_full (r rest word : List (Fin 256)) (i : Nat)
    (inserted : List (List (Fin 256) × Nat)) (h : readFull r 128 = (.full word, rest)) :
    readElements r i inserted
      = readElements rest ((i + 1) % 2 ^ 32) (inserted ++ [(word, i)]) := by
  rw [readElements]
  split
  · rename_i w r2 heq
    rw [h] at heq
    simp only [Prod.mk.injEq, ReadFull.full.injEq] at heq
    rw [heq.1, heq.2]
  · rename_i heq
    rw [h] at heq
    simp at heq
  · rename_i heq
    rw [h] at heq
    simp at heq

theorem readElements_eof (i : Nat) (inserted : List (List (Fin 256) × Nat)) :
    readElements [] i inserted = { inserts := inserted, ending := .returned } := by
  rw [readElements]
  split
  · rename_i heq
    simp [readFull] at heq
  · rfl
  · rename_i heq
    simp [readFull] at heq

theorem readElements_short (r : List (Fin 256)) (i : Nat)
    (inserted : List (List (Fin 256) × Nat)) (h0 : r ≠ []) (h : r.length < 128) :
    readElements r i inserted
      = { inserts := inserted, ending := .fatal "Malformed dataset" } := by
  have hlen : r.length ≠ 0 := fun h1 => h0 (List.length_eq_zero.1 h1)
  have h1 : ¬ 128 ≤ r.length := by omega
  rw [readElements]
  split
  · rename_i heq
    simp [readFull, h1, hlen] at heq
  · rename_i heq
    simp [readFull, h1, hlen] at heq
  · rfl

theorem readElements_chunks (chunks : List (List (Fin 256))) (tail : List (Fin 256))
    (i : Nat) (inserted : List (List (Fin 256) × Nat))
    (hc : ∀ c ∈ chunks, c.length = 128) (ht : tail.length < 128)
    (hi : i + chunks.length ≤ 2 ^ 32) :
    readElements (chunks.flatten ++ tail) i inserted =
      { inserts := inserted ++ chunks.zip (List.range' i chunks.length),
        ending := if tail = [] then .returned else .fatal "Malformed dataset" } := by
  induction chunks generalizing i inserted with
  | nil =>
    simp only [List.flatten_nil, List.nil_append, List.length_nil, List.range'_zero,
      List.zip_nil_right, List.append_nil]
    by_cases h0 : tail = []
    · subst h0
      rw [readElements_eof]
      simp
    · rw [readElements_short tail i inserted h0 ht]
      simp [h0]
  | cons c chunks ih =>
    have hcl : c.length = 128 := hc c (List.mem_cons_self _ _)
    have hcs : ∀ x ∈ chunks, x.length = 128 := fun x hx => hc x (List.mem_cons_of_mem _ hx)
    have hread : readFull (c ++ (chunks.flatten ++ tail)) 128
        = (.full c, chunks.flatten ++ tail) := by
      have h1 : 128 ≤ (c ++ (chunks.flatten ++ tail)).length := by
        rw [List.length_append]
        omega
      simp only [readFull, h1, if_true]
      rw [← hcl, List.take_left, List.drop_left]
    rw [List.flatten_cons, List.append_assoc, readElements_full _ _ _ i inserted hread]
    simp only [List.length_cons] at hi
    by_cases hk : chunks = []
    · subst hk
      rw [ih ((i + 1) % 2 ^ 32) (inserted ++ [(c, i)]) hcs
        (by simp only [List.length_nil]; omega)]
      simp [List.range']
    · have hpos : 0 < chunks.length := List.length_pos.2 hk
      have hmod : (i + 1) % 2 ^ 32 = i + 1 := Nat.mod_eq_of_lt (by omega)
      rw [hmod, ih (i + 1) (inserted ++ [(c, i)]) hcs (by omega)]
      simp [List.range']

/-- C27: for a DAG file made of the 8-byte magic prefix followed by k complete 128-byte
elements, processDuringRead calls Insert exactly k times, the j-th call (j = 0..k-1)
with the j-th element and the leaf index j, and returns; if a partial element of 1 to
127 bytes follows, the same k insertions are made and the process is aborted as a
malformed dataset. The index is a uint32, so k is at most 2 ^ 32. -/
theorem processDuringRead_inserts (magic : List (Fin 256)) (chunks : List (List (Fin 256)))
    (tail : List (Fin 256)) (hm : magic.length = 8) (hc : ∀ c ∈ chunks, c.length = 128)
    (hk : chunks.length ≤ 2 ^ 32) :
    processDuringRead (magic ++ chunks.flatten)
      = { inserts := chunks.zip (List.range chunks.length), ending := .returned } ∧
    (1 ≤ tail.length → tail.length ≤ 127 →
      processDuringRead (magic ++ chunks.flatten ++ tail)
        = { inserts := chunks.zip (List.range chunks.length),
            ending := .fatal "Malformed dataset" }) := by
  have hmagic : ∀ rest : List (Fin 256), readFull (magic ++ rest) 8 = (.full magic, rest) := by
    intro rest
    have h1 : 8 ≤ (magic ++ rest).length := by
      rw [List.length_append]
      omega
    simp only [readFull, h1, if_true]
    rw [← hm, List.take_left, List.drop_left]
  constructor
  · have h := readElements_chunks chunks [] 0 [] hc (by simp) (by omega)
    simp only [List.append_nil, List.nil_append, if_true] at h
    simp only [processDuringRead, hmagic, h, List.range_eq_range']
  · intro h1 h2
    have hne : tail ≠ [] := by
      intro h0
      subst h0
      simp at h1
    have h := readElements_chunks chunks tail 0 [] hc (by omega) (by omega)
    simp only [List.nil_append, hne, if_false] at h
    simp only [processDuringRead, List.append_assoc, hmagic, h, List.range_eq_range']

/-- A file with two elements for C27: two insertions with the indices 0 and 1; with 12
more bytes the same insertions are followed by the abort. -/
theorem processDuringRead_inserts_witness :
    processDuringRead (List.replicate 8 1 ++ [List.replicate 128 2, List.replicate 128 3].flatten)
      = { inserts := [(List.replicate 128 2, 0), (List.replicate 128 3, 1)],
          ending := .returned } ∧
    processDuringRead
        (List.replicate 8 1 ++ [List.replicate 128 2, List.replicate 128 3].flatten
          ++ List.replicate 12 4)
      = { inserts := [(List.replicate 128 2, 0), (List.replicate 128 3, 1)],
          ending := .fatal "Malformed dataset" } := by
  have h := processDuringRead_inserts (List.replicate 8 1)
    [List.replicate 128 2, List.replicate 128 3] (List.replicate 12 4) (by simp)
    (by simp) (by simp)
  exact ⟨h.1, h.2 (by simp) (by simp)⟩




/-! ## The rig statistics -/

theorem periodGet_periodSet_self (m : PeriodMap) (k : Nat) (v : PeriodRigData) :
    periodGet (periodSet m k v) k = some v := by
  induction m with
  | nil => simp [periodSet, periodGet]
  | cons e m ih =>
    obtain ⟨k', v'⟩ := e
    by_cases h : k' = k
    · simp [periodSet, periodGet, h]
    · simp [periodSet, periodGet, h, ih]

theorem periodSet_periodSet (m : PeriodMap) (k : Nat) (v w : PeriodRigData) :
    periodSet (periodSet m k v) k w = periodSet m k w := by
  induction m with
  | nil => simp [periodSet]
  | cons e m ih =>
    obtain ⟨k', v'⟩ := e
    by_cases h : k' = k
    · simp [periodSet, h]
    · simp [periodSet, h, ih]

theorem sumOver_periodSet (f : PeriodRigData → Nat) (m : PeriodMap) (k : Nat)
    (v : PeriodRigData) (h0 : f (NewPeriodRigData k) = 0) :
    sumOver f (periodSet m k v) + f ((periodGet m k).getD (NewPeriodRigData k))
      = sumOver f m + f v := by
  induction m with
  | nil => simp [periodSet, periodGet, sumOver, h0]
  | cons e m ih =>
    obtain ⟨k', v'⟩ := e
    by_cases h : k' = k
    · simp only [periodSet, periodGet, h, if_true, Option.getD_some, sumOver, List.map_cons,
        List.sum_cons]
      omega
    · simp only [periodSet, periodGet, h, if_false, sumOver, List.map_cons, List.sum_cons]
      simp only [sumOver] at ih
      omega

theorem sumDifficulty_periodSet (m : PeriodMap) (k : Nat) (v : PeriodRigData) :
    sumDifficulty (periodSet m k v)
        + ((periodGet m k).getD (NewPeriodRigData k)).TotalValidDifficulty
      = sumDifficulty m + v.TotalValidDifficulty := by
  induction m with
  | nil => simp [periodSet, periodGet, sumDifficulty, NewPeriodRigData]
  | cons e m ih =>
    obtain ⟨k', v'⟩ := e
    by_cases h : k' = k
    · simp only [periodSet, periodGet, h, if_true, Option.getD_some, sumDifficulty,
        List.map_cons, List.sum_cons]
      omega
    · simp only [periodSet, periodGet, h, if_false, sumDifficulty, List.map_cons,
        List.sum_cons]
      simp only [sumDifficulty] at ih
      omega

theorem Overall_updateAvgShareDifficulty_fields (o : OverallRigData) :
    o.updateAvgShareDifficulty.MinedShare = o.MinedShare ∧
    o.updateAvgShareDifficulty.ValidShare = o.ValidShare ∧
    o.updateAvgShareDifficulty.RejectedShare = o.RejectedShare ∧
    o.updateAvgShareDifficulty.BlockFound = o.BlockFound ∧
    o.updateAvgShareDifficulty.TotalValidDifficulty = o.TotalValidDifficulty := by
  unfold OverallRigData.updateAvgShareDifficulty
  split_ifs <;> exact ⟨rfl, rfl, rfl, rfl, rfl⟩

theorem Period_updateAvgShareDifficulty_fields (p : PeriodRigData) :
    p.updateAvgShareDifficulty.MinedShare = p.MinedShare ∧
    p.updateAvgShareDifficulty.ValidShare = p.ValidShare ∧
    p.updateAvgShareDifficulty.RejectedShare = p.RejectedShare ∧
    p.updateAvgShareDifficulty.BlockFound = p.BlockFound ∧
    p.updateAvgShareDifficulty.TotalValidDifficulty = p.TotalValidDifficulty := by
  unfold PeriodRigData.updateAvgShareDifficulty
  split_ifs <;> exact ⟨rfl, rfl, rfl, rfl, rfl⟩


theorem RigData_AddShare_Datas (T : Time → Nat) (B : Int) (rd : RigData) (status : String)
    (share : Share) (t : Time) :
    ∃ cur2 : PeriodRigData,
      (rd.AddShare T B status share t).Datas = periodSet rd.Datas (T t) cur2 := by
  by_cases hs : rd.Overall.StartTime = 0 <;>
  cases hget : periodGet rd.Datas (T t) <;>
  simp only [RigData.AddShare, RigData.getData, hs, hget, if_true, if_false,
    periodSet_periodSet] <;>
  exact ⟨_, rfl⟩


theorem Period_startTime_fields (p : PeriodRigData) (t : Time) :
    (if p.StartTime = 0 then { p with StartTime := t } else p).MinedShare = p.MinedShare ∧
    (if p.StartTime = 0 then { p with StartTime := t } else p).ValidShare = p.ValidShare ∧
    (if p.StartTime = 0 then { p with StartTime := t } else p).RejectedShare
      = p.RejectedShare ∧
    (if p.StartTime = 0 then { p with StartTime := t } else p).BlockFound = p.BlockFound ∧
    (if p.StartTime = 0 then { p with StartTime := t } else p).TotalValidDifficulty
      = p.TotalValidDifficulty := by
  split_ifs <;> exact ⟨rfl, rfl, rfl, rfl, rfl⟩

/-- What `AddShare` does to the five counters, overall and in the entry of the period
of `t`, which is a fresh entry when there was none. -/
theorem RigData_AddShare_counters (T : Time → Nat) (B : Int) (rd : RigData) (status : String)
    (share : Share) (t : Time) (cur cur2 : PeriodRigData)
    (hcur : cur = (periodGet rd.Datas (T t)).getD (NewPeriodRigData (T t)))
    (hcur2 : cur2 = (periodGet (rd.AddShare T B status share t).Datas (T t)).getD
      (NewPeriodRigData (T t))) :
    (rd.AddShare T B status share t).Overall.MinedShare
      = (if status = "submitted" then (rd.Overall.MinedShare + 1) % 2 ^ 64
          else rd.Overall.MinedShare) ∧
    cur2.MinedShare
      = (if status = "submitted" then (cur.MinedShare + 1) % 2 ^ 64 else cur.MinedShare) ∧
    (rd.AddShare T B status share t).Overall.ValidShare
      = (if status = "accepted" ∨ status = "fullsolution" then
          (rd.Overall.ValidShare + 1) % 2 ^ 64 else rd.Overall.ValidShare) ∧
    cur2.ValidShare
      = (if status = "accepted" ∨ status = "fullsolution" then
          (cur.ValidShare + 1) % 2 ^ 64 else cur.ValidShare) ∧
    (rd.AddShare T B status share t).Overall.RejectedShare
      = (if status = "rejected" then (rd.Overall.RejectedShare + 1) % 2 ^ 64
          else rd.Overall.RejectedShare) ∧
    cur2.RejectedShare
      = (if status = "rejected" then (cur.RejectedShare + 1) % 2 ^ 64
          else cur.RejectedShare) ∧
    (rd.AddShare T B status share t).Overall.BlockFound
      = (if status = "fullsolution" then (rd.Overall.BlockFound + 1) % 2 ^ 64
          else rd.Overall.BlockFound) ∧
    cur2.BlockFound
      = (if status = "fullsolution" then (cur.BlockFound + 1) % 2 ^ 64 else cur.BlockFound) ∧
    (rd.AddShare T B status share t).Overall.TotalValidDifficulty
      = (if status = "accepted" ∨ status = "fullsolution" then
          rd.Overall.TotalValidDifficulty + share.ShareDifficulty
          else rd.Overall.TotalValidDifficulty) ∧
    cur2.TotalValidDifficulty
      = (if status = "accepted" ∨ status = "fullsolution" then
          cur.TotalValidDifficulty + share.ShareDifficulty
          else cur.TotalValidDifficulty) := by
  have ho := Overall_updateAvgShareDifficulty_fields
  have hp := Period_updateAvgShareDifficulty_fields
  have hst := fun p => Period_startTime_fields p t
  subst hcur hcur2
  by_cases hs : rd.Overall.StartTime = 0 <;>
  cases hget : periodGet rd.Datas (T t) <;>
  by_cases h1 : status = "submitted"
  all_goals first
    | (simp [RigData.AddShare, RigData.getData, hs, hget, h1, periodSet_periodSet,
        periodGet_periodSet_self, NewPeriodRigData, hst]; done)
    | (by_cases h2 : status = "accepted"
       all_goals first
         | (simp [RigData.AddShare, RigData.getData, hs, hget, h1, h2, periodSet_periodSet,
             periodGet_periodSet_self, NewPeriodRigData, hst, ho, hp,
             OverallRigData.updateAvgEffHashrate, PeriodRigData.updateAvgEffHashrate]; done)
         | (by_cases h3 : status = "rejected"
            all_goals first
              | (simp [RigData.AddShare, RigData.getData, hs, hget, h1, h2, h3,
                  periodSet_periodSet, periodGet_periodSet_self, NewPeriodRigData, hst]; done)
              | (by_cases h4 : status = "fullsolution"
                 all_goals
                   simp [RigData.AddShare, RigData.getData, hs, hget, h1, h2, h3, h4,
                     periodSet_periodSet, periodGet_periodSet_self, NewPeriodRigData, hst, ho,
                     hp, OverallRigData.updateAvgEffHashrate,
                     PeriodRigData.updateAvgEffHashrate])))


theorem counter_step (o S S2 c c2 n : Nat) (d : Prop) [Decidable d] (ho : o = S % 2 ^ 64)
    (hS : S ≤ n) (hsum : S2 + c = S + c2)
    (hc2 : c2 = if d then (c + 1) % 2 ^ 64 else c) :
    (if d then (o + 1) % 2 ^ 64 else o) = S2 % 2 ^ 64 ∧ S2 ≤ n + 1 := by
  by_cases hd : d
  · simp only [hd, if_true] at hc2 ⊢
    omega
  · simp only [hd, if_false] at hc2 ⊢
    omega

theorem RigInv_NewRigData (rigID : String) : RigInv (NewRigData rigID) 0 := by
  constructor <;> simp [NewRigData, sumOver, sumDifficulty]

theorem RigInv_AddShare (T : Time → Nat) (B : Int) (rd : RigData) (n : Nat) (status : String)
    (share : Share) (t : Time) (h : RigInv rd n) :
    RigInv (rd.AddShare T B status share t) (n + 1) := by
  obtain ⟨X, hX⟩ := RigData_AddShare_Datas T B rd status share t
  have hX2 : X = (periodGet (rd.AddShare T B status share t).Datas (T t)).getD
      (NewPeriodRigData (T t)) := by
    rw [hX, periodGet_periodSet_self]
    rfl
  obtain ⟨f1, g1, f2, g2, f3, g3, f4, g4, f5, g5⟩ :=
    RigData_AddShare_counters T B rd status share t _ X rfl hX2
  have s1 := sumOver_periodSet (fun p => p.MinedShare) rd.Datas (T t) X rfl
  have s2 := sumOver_periodSet (fun p => p.ValidShare) rd.Datas (T t) X rfl
  have s3 := sumOver_periodSet (fun p => p.RejectedShare) rd.Datas (T t) X rfl
  have s4 := sumOver_periodSet (fun p => p.BlockFound) rd.Datas (T t) X rfl
  have s5 := sumDifficulty_periodSet rd.Datas (T t) X
  rw [← hX] at s1 s2 s3 s4 s5
  have c1 := counter_step _ _ _ _ _ n _ h.mined h.minedLe s1 g1
  have c2 := counter_step _ _ _ _ _ n _ h.valid h.validLe s2 g2
  have c3 := counter_step _ _ _ _ _ n _ h.rejected h.rejectedLe s3 g3
  have c4 := counter_step _ _ _ _ _ n _ h.found h.foundLe s4 g4
  refine ⟨?_, c1.2, ?_, c2.2, ?_, c3.2, ?_, c4.2, ?_⟩
  · rw [f1]
    exact c1.1
  · rw [f2]
    exact c2.1
  · rw [f3]
    exact c3.1
  · rw [f4]
    exact c4.1
  · rw [f5]
    have hd := h.difficulty
    rw [g5] at s5
    split_ifs at s5 ⊢ <;> omega

theorem RigInv_addShares (T : Time → Nat) (B : Int) (rd : RigData) (n : Nat)
    (calls : List (String × Share × Time)) (h : RigInv rd n) :
    RigInv (rd.addShares T B calls) (n + calls.length) := by
  induction calls generalizing rd n with
  | nil => exact h
  | cons call calls ih =>
    have h1 := RigInv_AddShare T B rd n call.1 call.2.1 call.2.2 h
    have h2 := ih _ _ h1
    simp only [List.length_cons]
    have he : n + (calls.length + 1) = n + 1 + calls.length := by omega
    rw [he]
    exact h2


/-- C28: for every sequence of RigData.AddShare calls on a fresh NewRigData, whatever the
statuses, shares and times, the overall MinedShare, ValidShare, RejectedShare,
BlockFound and TotalValidDifficulty each equal the sum of the same field over the
per-period entries of Datas; a fullsolution share counts as one valid share and one
found block, overall and in its period; a status other than submitted, accepted,
rejected or fullsolution changes none of these counters. The counters are uint64, so
the sequence has fewer than 2 ^ 64 calls. -/
theorem RigData_totals (T : Time → Nat) (B : Int) (rigID : String)
    (calls : List (String × Share × Time)) (hlen : calls.length < 2 ^ 64) :
    (((NewRigData rigID).addShares T B calls).Overall.MinedShare
        = sumOver (fun p => p.MinedShare) ((NewRigData rigID).addShares T B calls).Datas ∧
      ((NewRigData rigID).addShares T B calls).Overall.ValidShare
        = sumOver (fun p => p.ValidShare) ((NewRigData rigID).addShares T B calls).Datas ∧
      ((NewRigData rigID).addShares T B calls).Overall.RejectedShare
        = sumOver (fun p => p.RejectedShare) ((NewRigData rigID).addShares T B calls).Datas ∧
      ((NewRigData rigID).addShares T B calls).Overall.BlockFound
        = sumOver (fun p => p.BlockFound) ((NewRigData rigID).addShares T B calls).Datas ∧
      ((NewRigData rigID).addShares T B calls).Overall.TotalValidDifficulty
        = sumDifficulty ((NewRigData rigID).addShares T B calls).Datas) ∧
    (∀ (rd : RigData) (share : Share) (t : Time),
      (rd.AddShare T B "fullsolution" share t).Overall.ValidShare
        = (rd.Overall.ValidShare + 1) % 2 ^ 64 ∧
      (rd.AddShare T B "fullsolution" share t).Overall.BlockFound
        = (rd.Overall.BlockFound + 1) % 2 ^ 64 ∧
      (rd.AddShare T B "fullsolution" share t).Overall.MinedShare = rd.Overall.MinedShare ∧
      (rd.AddShare T B "fullsolution" share t).Overall.RejectedShare
        = rd.Overall.RejectedShare ∧
      (rd.AddShare T B "fullsolution" share t).Overall.TotalValidDifficulty
        = rd.Overall.TotalValidDifficulty + share.ShareDifficulty ∧
      ((periodGet (rd.AddShare T B "fullsolution" share t).Datas (T t)).getD
          (NewPeriodRigData (T t))).ValidShare
        = (((periodGet rd.Datas (T t)).getD (NewPeriodRigData (T t))).ValidShare + 1)
            % 2 ^ 64 ∧
      ((periodGet (rd.AddShare T B "fullsolution" share t).Datas (T t)).getD
          (NewPeriodRigData (T t))).BlockFound
        = (((periodGet rd.Datas (T t)).getD (NewPeriodRigData (T t))).BlockFound + 1)
            % 2 ^ 64) ∧
    (∀ (rd : RigData) (status : String) (share : Share) (t : Time),
      status ≠ "submitted" → status ≠ "accepted" → status ≠ "rejected" →
      status ≠ "fullsolution" →
      (rd.AddShare T B status share t).Overall.MinedShare = rd.Overall.MinedShare ∧
      (rd.AddShare T B status share t).Overall.ValidShare = rd.Overall.ValidShare ∧
      (rd.AddShare T B status share t).Overall.RejectedShare = rd.Overall.RejectedShare ∧
      (rd.AddShare T B status share t).Overall.BlockFound = rd.Overall.BlockFound ∧
      (rd.AddShare T B status share t).Overall.TotalValidDifficulty
        = rd.Overall.TotalValidDifficulty ∧
      sumOver (fun p => p.MinedShare) (rd.AddShare T B status share t).Datas
        = sumOver (fun p => p.MinedShare) rd.Datas ∧
      sumOver (fun p => p.ValidShare) (rd.AddShare T B status share t).Datas
        = sumOver (fun p => p.ValidShare) rd.Datas ∧
      sumOver (fun p => p.RejectedShare) (rd.AddShare T B status share t).Datas
        = sumOver (fun p => p.RejectedShare) rd.Datas ∧
      sumOver (fun p => p.BlockFound) (rd.AddShare T B status share t).Datas
        = sumOver (fun p => p.BlockFound) rd.Datas ∧
      sumDifficulty (rd.AddShare T B status share t).Datas = sumDifficulty rd.Datas) := by
  refine ⟨?_, ?_, ?_⟩
  · have h := RigInv_addShares T B (NewRigData rigID) 0 calls (RigInv_NewRigData rigID)
    rw [Nat.zero_add] at h
    have e1 := h.mined
    have e2 := h.valid
    have e3 := h.rejected
    have e4 := h.found
    have b1 := h.minedLe
    have b2 := h.validLe
    have b3 := h.rejectedLe
    have b4 := h.foundLe
    rw [Nat.mod_eq_of_lt (by omega)] at e1 e2 e3 e4
    exact ⟨e1, e2, e3, e4, h.difficulty⟩
  · intro rd share t
    obtain ⟨f1, _, f2, g2, f3, _, f4, g4, f5, _⟩ :=
      RigData_AddShare_counters T B rd "fullsolution" share t _ _ rfl rfl
    simp only [String.reduceEq, or_true, if_true, if_false] at f1 f2 g2 f3 f4 g4 f5
    exact ⟨f2, f4, f1, f3, f5, g2, g4⟩
  · intro rd status share t h1 h2 h3 h4
    obtain ⟨X, hX⟩ := RigData_AddShare_Datas T B rd status share t
    have hX2 : X = (periodGet (rd.AddShare T B status share t).Datas (T t)).getD
        (NewPeriodRigData (T t)) := by
      rw [hX, periodGet_periodSet_self]
      rfl
    obtain ⟨f1, g1, f2, g2, f3, g3, f4, g4, f5, g5⟩ :=
      RigData_AddShare_counters T B rd status share t _ X rfl hX2
    simp only [h1, h2, h3, h4, or_self, if_false] at f1 g1 f2 g2 f3 g3 f4 g4 f5 g5
    have s1 := sumOver_periodSet (fun p => p.MinedShare) rd.Datas (T t) X rfl
    have s2 := sumOver_periodSet (fun p => p.ValidShare) rd.Datas (T t) X rfl
    have s3 := sumOver_periodSet (fun p => p.RejectedShare) rd.Datas (T t) X rfl
    have s4 := sumOver_periodSet (fun p => p.BlockFound) rd.Datas (T t) X rfl
    have s5 := sumDifficulty_periodSet rd.Datas (T t) X
    rw [← hX] at s1 s2 s3 s4 s5
    simp only [g1, g2, g3, g4, g5] at s1 s2 s3 s4 s5
    exact ⟨f1, f2, f3, f4, f5, by omega, by omega, by omega, by omega, by omega⟩

/-- Seven calls over three periods for C28, one of each status and one unknown: three
mined, two valid, one rejected, one block and a valid difficulty of 2000, overall and
summed over the periods. -/
theorem RigData_totals_witness :
    demoCalls.length < 2 ^ 64 ∧
    ((NewRigData "rig").addShares demoPeriod 600 demoCalls).Overall.MinedShare = 3 ∧
    sumOver (fun p => p.MinedShare)
      ((NewRigData "rig").addShares demoPeriod 600 demoCalls).Datas = 3 ∧
    ((NewRigData "rig").addShares demoPeriod 600 demoCalls).Overall.ValidShare
      = sumOver (fun p => p.ValidShare)
          ((NewRigData "rig").addShares demoPeriod 600 demoCalls).Datas ∧
    ((NewRigData "rig").addShares demoPeriod 600 demoCalls).Overall.TotalValidDifficulty
      = sumDifficulty ((NewRigData "rig").addShares demoPeriod 600 demoCalls).Datas := by
  have h := (RigData_totals demoPeriod 600 "rig" demoCalls (by decide)).1
  exact ⟨by decide, by decide, h.1.symm.trans (by decide), h.2.1, h.2.2.2.2⟩




/-! ## Saving and reloading the session -/

/-- C23, the code at the failing input: the repository configured for the miner 0xM accepts
a share of the miner 0xN, since AddShare never compares the miner, and that state is
reachable; with one claim put in activeClaims it has NoActiveShares() = 1 and
NumOpenClaims() = 1. Persist into an empty storage succeeds. NewTimestampClaimRepo with the
same diff, miner and coinbase on that storage prompts: with no answer it builds nothing, on
the answer 1 it builds the empty repository, with NoActiveShares() = 0 and
NumOpenClaims() = 0, on the answer 2 the process ends. Configured for the miner 0xN, the
same storage is reloaded with no prompt and with both observables kept. -/
theorem Persist_reload_prompts :
    Reachable demoHash 1000 "0xM" "0xC"
      (AddShare demoHash demoRepo (demoShareOf "0xN" 2 100)).2 ∧
    (AddShare demoHash demoRepo (demoShareOf "0xN" 2 100)).1 = none ∧
    demoRepoN.NoActiveShares = 1 ∧ demoRepoN.NumOpenClaims = 1 ∧
    (Persist demoHash demoRepoN emptyStorage demoRepoN.activeShares).2 = none ∧
    NewTimestampClaimRepo 1000 "0xM" "0xC" demoStorageR [] = .unanswered 0 ∧
    NewTimestampClaimRepo 1000 "0xM" "0xC" demoStorageR ["1"]
      = .started (discarded 1000 "0xM" "0xC") 1 ∧
    (discarded 1000 "0xM" "0xC").NoActiveShares = 0 ∧
    (discarded 1000 "0xM" "0xC").NumOpenClaims = 0 ∧
    NewTimestampClaimRepo 1000 "0xM" "0xC" demoStorageR ["2"] = .aborted 1 ∧
    (∃ cr, NewTimestampClaimRepo 1000 "0xN" "0xC" demoStorageR [] = .started cr 0 ∧
      cr.NoActiveShares = 1 ∧ cr.NumOpenClaims = 1) := by
  refine ⟨Reachable.addShare _ Reachable.empty, by decide, by decide, by decide, by decide,
    by decide, by decide, by decide, by decide, by decide, ⟨_, rfl, by decide, by decide⟩⟩

end SmartPool
